import Mathlib

/-!
# kube-beacon: the audit evaluation engine of `internal/commands/k8s-audit.go`

A shallow embedding of the combinatorial evaluation (`evalExpression`), of the
parameter substitution (`UpdateCommandParams`) and of the functions around them,
followed by theorems about them.

Conventions of the embedding.

* A Go `string` is a `GoString`, a list of characters.  Every delimiter the
  program looks for (the line terminator, the `#` token, decimal digits) is
  ASCII, so on well-formed UTF-8 text splitting, searching and replacing by
  character and by byte agree.
* A Go slice is a list; the capacity of a slice is taken to be its length.
* A Go `int` is an `Int`.  The counters only ever grow by one per evaluated
  combination, so wrap-around would need `2^63` evaluations and is not modelled.
* A run-time panic is a `Fault`; functions that can panic return `Except Fault`.
* The pointer `*models.AuditBench` is modelled by passing the pointed-to value
  in and out (`World.atb`).
* `log.Console` output is not part of the model.
-/

namespace KubeBeacon

/-! ## Go strings and the `strings` / `strconv` / `fmt` functions used -/

/-- Go `string`. -/
abbrev GoString := List Char

/-- The pieces of `strings.Split(s, sep)` for a non-empty `sep`, scanning from the
left; `skip` counts the characters of a separator just matched that are still to
be passed over. -/
def splitScan (sep : GoString) : Nat → GoString → List GoString
  | _, [] => [[]]
  | skip + 1, _ :: xs => splitScan sep skip xs
  | 0, x :: xs =>
    if sep.isPrefixOf (x :: xs) then
      [] :: splitScan sep (sep.length - 1) xs
    else
      match splitScan sep 0 xs with
      | [] => [[x]]
      | p :: ps => (x :: p) :: ps

/-- Go `strings.Split(s, sep)`: with an empty separator the string is exploded
into its characters, otherwise it is cut at every (leftmost, non-overlapping)
occurrence of `sep`. -/
def Split (s sep : GoString) : List GoString :=
  if sep = [] then s.map (fun c => [c]) else splitScan sep 0 s

/-- Go `strings.Contains(s, substr)`. -/
def Contains : GoString → GoString → Bool
  | [], substr => substr.isEmpty
  | x :: xs, substr => substr.isPrefixOf (x :: xs) || Contains xs substr

/-- Go `strings.Trim(s, cutset)`: all leading and all trailing characters that
belong to `cutset` are removed. -/
def Trim (s cutset : GoString) : GoString :=
  ((s.dropWhile (fun c => cutset.contains c)).reverse.dropWhile
    (fun c => cutset.contains c)).reverse

/-- The replacement loop of `strings.Replace` for a non-empty `old`: every
leftmost, non-overlapping occurrence of `old` is replaced by `new`; `skip`
counts the characters of a matched occurrence still to be passed over. -/
def replaceScan (old new : GoString) : Nat → GoString → GoString
  | _, [] => []
  | skip + 1, _ :: xs => replaceScan old new skip xs
  | 0, x :: xs =>
    if old.isPrefixOf (x :: xs) then
      new ++ replaceScan old new (old.length - 1) xs
    else
      x :: replaceScan old new 0 xs

/-- Go `strings.ReplaceAll(s, old, new)`.  When `old` is empty Go inserts `new`
before every character and at the end. -/
def ReplaceAll (s old new : GoString) : GoString :=
  if old = new then s
  else if old = [] then new ++ s.flatMap (fun c => c :: new)
  else replaceScan old new 0 s

/-- Value of a non-empty run of decimal digits, `none` on any other character. -/
def parseDigits : GoString → Nat → Option Nat
  | [], acc => some acc
  | c :: cs, acc =>
    if c.isDigit then parseDigits cs (acc * 10 + (c.toNat - '0'.toNat)) else none

/-- Go `strconv.Atoi(s)` on a 64-bit platform: an optional sign followed by at
least one decimal digit; `none` stands for a non-nil `err` (syntax or range). -/
def Atoi (s : GoString) : Option Int :=
  match s with
  | [] => none
  | '-' :: ds =>
    if ds = [] then none
    else match parseDigits ds 0 with
      | none => none
      | some v => if v ≤ 2 ^ 63 then some (-(v : Int)) else none
  | '+' :: ds =>
    if ds = [] then none
    else match parseDigits ds 0 with
      | none => none
      | some v => if v < 2 ^ 63 then some (v : Int) else none
  | ds =>
    match parseDigits ds 0 with
    | none => none
    | some v => if v < 2 ^ 63 then some (v : Int) else none

/-- Go `fmt.Sprintf("%d", x)`. -/
def Itoa (x : Int) : GoString :=
  if x < 0 then '-' :: Nat.toDigits 10 x.natAbs else Nat.toDigits 10 x.toNat

/-- Go `fmt.Sprintf("#%d", x)`: the token of source index `x`. -/
def paramToken (x : Int) : GoString := '#' :: Itoa x

/-! ## Data model -/

/-- Run-time failures of the Go program that the model can reach. -/
inductive Fault where
  /-- slice bounds out of range -/
  | sliceBounds
  /-- index out of range -/
  | indexRange
  /-- the recursion budget of the model ran out (this never happens, see
  `evalExpressionFuel_ne_fuel` and `evalExpressionFuel_fuel_irrelevant`) -/
  | fuel
  deriving DecidableEq, Repr

deriving instance DecidableEq for Except

/-- Modelled from the spec: the counter pair `TestResult` of `models.AuditBench`;
the package `internal/models` is not among the sources at hand. -/
structure TestResult where
  NumOfExec : Int
  NumOfSuccess : Int
  deriving DecidableEq, Repr

/-- Modelled from the spec: the fields of `models.AuditBench` that `k8s-audit.go`
reads or writes (its declaration is not among the sources at hand): the name,
the ordered list of probe-command templates, the ordered list of per-probe
parameter-index lists, the assertion template and the counter pair. -/
structure AuditBench where
  Name : GoString
  AuditCommand : List GoString
  CommandParams : List (List GoString)
  EvalExpr : GoString
  TestResult : TestResult
  deriving DecidableEq, Repr

/-- The struct `ValidateExprData` without its pointer field `atb` (see `World`). -/
structure ValidateExprData where
  index : Int
  resultArr : List GoString
  origSize : Int
  Total : Int
  Match : Int
  deriving DecidableEq, Repr

/-- The method `NextValidExprData`: the slice expression `ve.resultArr[1:ve.index]` panics
unless `1 ≤ index ≤ cap(resultArr)`. -/
def ValidateExprData.NextValidExprData (ve : ValidateExprData) :
    Except Fault ValidateExprData :=
  if 1 ≤ ve.index ∧ ve.index ≤ (ve.resultArr.length : Int) then
    .ok { resultArr := (ve.resultArr.take ve.index.toNat).drop 1,
          index := ve.index - 1, origSize := ve.origSize, Total := 0, Match := 0 }
  else .error .sliceBounds

/-- The constructor `NewValidExprData(arr, at)`. -/
def NewValidExprData (arr : List GoString) : ValidateExprData :=
  { resultArr := arr, index := arr.length, origSize := arr.length, Total := 0, Match := 0 }

/-- What a `govaluate` expression can evaluate to (an `interface{}`). -/
inductive GoValue where
  | bool (b : Bool)
  | number (x : Int)
  | str (s : GoString)
  | other
  deriving DecidableEq, Repr

/-- The collaborators that are not part of `k8s-audit.go`, taken as parameters:
`models.AuditBench.Sanitize`, and the two steps of the `govaluate` library, in
which `none` stands for a non-nil `err`. -/
structure Env where
  Sanitize : List GoString → GoString → GoString
  Expression : Type
  NewEvaluableExpression : GoString → Option Expression
  Evaluate : Expression → Option GoValue

/-- The mutable world of one test: the audit bench behind the pointer `atb`, and
`evaluated`, a ghost record (it has no counterpart in the Go state) of every
combination handed to `Sanitize` and then to the evaluator, oldest first. -/
structure World where
  atb : AuditBench
  evaluated : List (List GoString)

/-- The method `evalCommandExpr`: the count and the error (here only its message). -/
def evalCommandExpr (env : Env) (atb : AuditBench) (expr : GoString) :
    Int × Option GoString :=
  match env.NewEvaluableExpression expr with
  | none => (0, some ("failed to build evaluation command expr for\n ".toList ++ atb.Name))
  | some expression =>
    match env.Evaluate expression with
    | none => (0, some ("failed to evaluate command expr for audit test ".toList ++ atb.Name))
    | some result =>
      match result with
      | .bool true => (1, none)
      | _ => (0, none)

/-- Lines 176–182 of `evalExpression`: one complete combination is sanitized,
counted in `NumOfExec` and its count added to `NumOfSuccess`. -/
def evalCombination (env : Env) (w : World) (combArr : List GoString) : World :=
  let expr := env.Sanitize combArr w.atb.EvalExpr
  let atb1 := { w.atb with TestResult :=
    { w.atb.TestResult with NumOfExec := w.atb.TestResult.NumOfExec + 1 } }
  let count := (evalCommandExpr env atb1 expr).1
  { atb := { atb1 with TestResult :=
      { atb1.TestResult with NumOfSuccess := atb1.TestResult.NumOfSuccess + count } },
    evaluated := w.evaluated ++ [combArr] }

/-- The `for _, o := range outputs` loop of `evalExpression` (lines 169–185) over
the outputs still to visit; `nOutputs` is `len(outputs)` and `recur` the
recursive call.  It returns the combination buffer and the world after the
loop.  The callee appends to its own copy of the slice header, beyond the
length the caller sees, so the caller's view of `combArr` is not disturbed. -/
def rangeOutputs (env : Env)
    (recur : ValidateExprData → List GoString → World → Except Fault World)
    (ved : ValidateExprData) (nOutputs : Nat) :
    List GoString → List GoString → World → Except Fault (List GoString × World)
  | [], combArr, w => .ok (combArr, w)
  | o :: os, combArr, w =>
    if o.length = 0 ∧ nOutputs > 1 then
      rangeOutputs env recur ved nOutputs os combArr w
    else
      let combArr1 := combArr ++ [o]
      match ved.NextValidExprData with
      | .error e => .error e
      | .ok next =>
        match recur next combArr1 w with
        | .error e => .error e
        | .ok w1 =>
          let w2 := if ved.origSize = (combArr1.length : Int) then
            evalCombination env w1 combArr1 else w1
          rangeOutputs env recur ved nOutputs os combArr1.dropLast w2

/-- The method `evalExpression` with a recursion budget: each nested call costs
one unit. -/
def evalExpressionFuel (env : Env) :
    Nat → ValidateExprData → List GoString → World → Except Fault World
  | fuel, ved, combArr, w =>
    match ved.resultArr with
    | [] => .ok w
    | r0 :: _ =>
      match fuel with
      | 0 => .error .fuel
      | fuel + 1 =>
        let outputs := Split r0 "\n".toList
        match rangeOutputs env (evalExpressionFuel env fuel) ved outputs.length
            outputs combArr w with
        | .error e => .error e
        | .ok (_, w1) => .ok w1

/-- The method `evalExpression(ved, combArr)`.  Every nested call works on a strictly
shorter `resultArr`, so a budget of `len(ved.resultArr)` is never used up. -/
def evalExpression (env : Env) (ved : ValidateExprData) (combArr : List GoString)
    (w : World) : Except Fault World :=
  evalExpressionFuel env ved.resultArr.length ved combArr w

/-! ## Reporting and parameter substitution -/

/-- The fields of `K8sAudit` that the functions modelled here touch. -/
structure K8sAudit where
  FailedTests : List AuditBench
  args : List GoString

/-- The method `AddFailedMessages(data)`, given the audit bench `data.atb` points to. -/
def K8sAudit.AddFailedMessages (bk : K8sAudit) (atb : AuditBench) : K8sAudit :=
  if atb.TestResult.NumOfSuccess ≠ atb.TestResult.NumOfExec then
    { bk with FailedTests := bk.FailedTests ++ [atb] }
  else bk

/-- The string constants of the package `internal/common`, which is not part of
the sources at hand; they are taken as parameters. -/
structure Common where
  NotValidNumber : GoString
  NotValidString : GoString
  SingleValue : GoString

/-- The literal `"[^\"]\\S*'\n"` of line 141. -/
def placeholderArtifact : GoString := "[^\"]\\S*'\n".toList

/-- The `for _, param := range params` loop of `UpdateCommandParams` (lines
132–151); falling out of the loop returns `val` (line 153). -/
def rangeParams (common : Common) (val : GoString) (resArr : List GoString) :
    List GoString → Except Fault GoString
  | [] => .ok val
  | param :: rest =>
    match Atoi param with
    | none => rangeParams common val resArr rest
    | some x =>
      if x < (resArr.length : Int) then
        if x < 0 then .error .indexRange
        else
          let n := resArr.getD x.toNat []
          if n = placeholderArtifact ∨ n = [] ∨ n = common.NotValidString then
            .ok []
          else
            let n1 :=
              if Contains n "\n".toList then
                let nl := n.drop (n.length - 1)
                if nl = "\n".toList then Trim n "\n".toList else n
              else n
            .ok (ReplaceAll val (paramToken x) n1)
      else rangeParams common val resArr rest

/-- The method `UpdateCommandParams(at, index, val, resArr)`; `at.CommandParams[index]`
panics when `index` is not an index of `at.CommandParams`. -/
def UpdateCommandParams (common : Common) (atb : AuditBench) (index : Int)
    (val : GoString) (resArr : List GoString) : Except Fault GoString :=
  if 0 ≤ index ∧ index < (atb.CommandParams.length : Int) then
    let params := atb.CommandParams.getD index.toNat []
    if params.length > 0 then rangeParams common val resArr params else .ok val
  else .error .indexRange


/-! ## The probe loop of `runTests` -/

/-- Modelled from the spec: one component of an assertion as `utils.SeparateExpr`
returns it (the package `pkg/utils` is not among the sources at hand): its kind
(the field `Type` in Go) and its text (the field `Expr`). -/
structure SepExpr where
  ExprType : GoString
  Expr : GoString
  deriving DecidableEq, Repr

/-- The function `utils.SeparateExpr`, which is not part of the sources at hand;
it is taken as a parameter. -/
structure Utils where
  SeparateExpr : GoString → List SepExpr

/-- The `for _, expr := range spExpr` loop of `addDummyCommandResponse` (lines
109–117); falling out of the loop returns `common.NotValidString` (line 118). -/
def rangeSpExpr (common : Common) (index : Int) : List SepExpr → GoString
  | [] => common.NotValidString
  | expr :: rest =>
    if expr.ExprType = common.SingleValue then
      if ¬ (Contains expr.Expr ("'$".toList ++ Itoa index ++ "'".toList) = true) then
        if Contains expr.Expr ('$' :: Itoa index) = true then common.NotValidNumber
        else rangeSpExpr common index rest
      else rangeSpExpr common index rest
    else rangeSpExpr common index rest

/-- The method `addDummyCommandResponse(at, index)`. -/
def addDummyCommandResponse (common : Common) (utils : Utils) (atb : AuditBench)
    (index : Int) : GoString :=
  rangeSpExpr common index (utils.SeparateExpr atb.EvalExpr)

/-- Modelled from the spec: what the probe executor returns for a command (the
package `internal/shell` is not among the sources at hand). -/
structure CommandResult where
  Stdout : GoString
  Stderr : GoString
  deriving DecidableEq, Repr

/-- Modelled from the spec: the probe executor `shell.Executor`, any function
from a command to its captured output that may depend on, and change, a state
of its own (the machine and the cluster it talks to). -/
structure Executor where
  State : Type
  Exec : State → GoString → CommandResult × State

/-- The state of the probe loop: the captured values `resArr`, the state of the
executor, and `executed`, a ghost record (it has no counterpart in the Go
state) of every call of the executor, oldest first: the index of the probe, the
command and the result. -/
structure ProbeRun (σ : Type) where
  resArr : List GoString
  shell : σ
  executed : List (Nat × GoString × CommandResult)

/-- The `for index, val := range at.AuditCommand` loop of `runTests` (lines
82–96) from the probe `index` on, over the commands still to run. -/
def rangeAuditCommand (common : Common) (utils : Utils) (ex : Executor) (atb : AuditBench) :
    Nat → List GoString → ProbeRun ex.State → Except Fault (ProbeRun ex.State)
  | _, [], run => .ok run
  | index, val :: rest, run =>
    match UpdateCommandParams common atb (index : Int) val run.resArr with
    | .error e => .error e
    | .ok cmd =>
      if cmd = [] then
        let emptyValue := addDummyCommandResponse common utils atb (index : Int)
        rangeAuditCommand common utils ex atb (index + 1) rest
          { run with resArr := run.resArr ++ [emptyValue] }
      else
        let result := ex.Exec run.shell cmd
        if result.1.Stderr ≠ [] then
          rangeAuditCommand common utils ex atb (index + 1) rest
            { resArr := run.resArr ++ [[]], shell := result.2,
              executed := run.executed ++ [(index, cmd, result.1)] }
        else
          rangeAuditCommand common utils ex atb (index + 1) rest
            { resArr := run.resArr ++ [result.1.Stdout], shell := result.2,
              executed := run.executed ++ [(index, cmd, result.1)] }

/-- The body of the outer loop of `runTests` (lines 81–103) for one test: the
probes are run, the captured values are handed to `evalExpression`, and the
test is either printed (console only) or passed to `AddFailedMessages`. -/
def runTest (common : Common) (utils : Utils) (ex : Executor) (env : Env)
    (bk : K8sAudit) (shell : ex.State) (atb : AuditBench) :
    Except Fault (K8sAudit × ex.State × World) :=
  match rangeAuditCommand common utils ex atb 0 atb.AuditCommand
      { resArr := [], shell := shell, executed := [] } with
  | .error e => .error e
  | .ok run =>
    let data := NewValidExprData run.resArr
    match evalExpression env data [] { atb := atb, evaluated := [] } with
    | .error e => .error e
    | .ok w =>
      if bk.args.length = 1 ∧ bk.args.getD 0 [] ≠ "report".toList then
        .ok (bk, run.shell, w)
      else
        .ok (bk.AddFailedMessages w.atb, run.shell, w)

/-- The method `runTests(ac)` over the audit tests of the category: it returns
the audit object, the state of the executor and the tests as they are after
the run. -/
def runTests (common : Common) (utils : Utils) (ex : Executor) (env : Env) :
    K8sAudit → ex.State → List AuditBench →
      Except Fault (K8sAudit × ex.State × List AuditBench)
  | bk, shell, [] => .ok (bk, shell, [])
  | bk, shell, atb :: rest =>
    match runTest common utils ex env bk shell atb with
    | .error e => .error e
    | .ok (bk1, shell1, w) =>
      match runTests common utils ex env bk1 shell1 rest with
      | .error e => .error e
      | .ok (bk2, shell2, done) => .ok (bk2, shell2, w.atb :: done)

/-! ## Specification-side notions -/

/-- The retained lines of a probe output: the pieces of the split on the line
terminator, an empty piece being dropped when there is more than one piece. -/
def retainedLines (o : GoString) : List GoString :=
  (Split o "\n".toList).filter
    (fun p => !decide (p.length = 0 ∧ (Split o "\n".toList).length > 1))

/-- All selections of one entry per list, the first list varying slowest. -/
def combinations : List (List GoString) → List (List GoString)
  | [] => [[]]
  | l :: ls => l.flatMap (fun o => (combinations ls).map (fun c => o :: c))

/-- The sanitized expression `expr` evaluates to the boolean `true`. -/
def evaluatesTrue (env : Env) (expr : GoString) : Bool :=
  match env.NewEvaluableExpression expr with
  | none => false
  | some expression =>
    match env.Evaluate expression with
    | some (.bool true) => true
    | _ => false

/-- The world reached from `w` once the combinations `cs` have been evaluated. -/
def worldAfter (env : Env) (w : World) (cs : List (List GoString)) : World :=
  { atb := { w.atb with TestResult :=
      { NumOfExec := w.atb.TestResult.NumOfExec + (cs.length : Int),
        NumOfSuccess := w.atb.TestResult.NumOfSuccess +
          ((cs.countP (fun c => evaluatesTrue env (env.Sanitize c w.atb.EvalExpr)) : Nat) : Int) } },
    evaluated := w.evaluated ++ cs }


/-- The first declared parameter that parses as a number and passes the range
test `x < len(resArr)` of line 138, if there is one. -/
def firstInRange (resArr : List GoString) : List GoString → Option Int
  | [] => none
  | param :: rest =>
    match Atoi param with
    | none => firstInRange resArr rest
    | some x => if x < (resArr.length : Int) then some x else firstInRange resArr rest

/-- The recursion states of `evalExpression` reachable from
`NewValidExprData(arr, test)`, with their nesting depth: the state of the
outermost call, at depth 0, and, for a reachable state whose `resultArr` is not
empty (only then is the loop entered), the state `NextValidExprData` returns,
one level deeper (line 174 is the only recursive call, and by
`rangeOutputs_congr` the loop consults the recursive call at that state
only). -/
inductive ReachableAt (arr : List GoString) : Nat → ValidateExprData → Prop where
  | start : ReachableAt arr 0 (NewValidExprData arr)
  | call (depth : Nat) (ved next : ValidateExprData) :
      ReachableAt arr depth ved → ved.resultArr ≠ [] →
      ved.NextValidExprData = .ok next → ReachableAt arr (depth + 1) next

/-! ## Auxiliary notions used in the proofs -/

/-- The text that line 149 inserts for a captured value `n` that passed the
validity test of line 141 (lines 143–148). -/
def insertedText (n : GoString) : GoString :=
  if Contains n "\n".toList then
    if n.drop (n.length - 1) = "\n".toList then Trim n "\n".toList else n
  else n

/-- The outcome of `UpdateCommandParams` once the loop has reached a parameter
that parses to `x` and passes the range test. -/
def substituteAt (common : Common) (val : GoString) (resArr : List GoString) (x : Int) :
    Except Fault GoString :=
  if x < 0 then .error .indexRange
  else if resArr.getD x.toNat [] = placeholderArtifact ∨ resArr.getD x.toNat [] = [] ∨
      resArr.getD x.toNat [] = common.NotValidString then .ok []
  else .ok (ReplaceAll val (paramToken x) (insertedText (resArr.getD x.toNat [])))

/-- What the probe loop has captured for the probe `i` in the run `run`: the
command `UpdateCommandParams` returned on the values captured before it, and
either the command is empty, the value is the dummy response and the executor
was not called for `i`, or the executor was called exactly once for `i`, with
that command, and the value is the empty string when it reported something on
the standard error and its standard output otherwise. -/
def ProbeCaptured (common : Common) (utils : Utils) (ex : Executor) (atb : AuditBench)
    (run : ProbeRun ex.State) (i : Nat) : Prop :=
  ∃ cmd, UpdateCommandParams common atb (i : Int) (atb.AuditCommand.getD i [])
      (run.resArr.take i) = .ok cmd ∧
    ((cmd = [] ∧ run.resArr.getD i [] = addDummyCommandResponse common utils atb (i : Int) ∧
        ∀ e ∈ run.executed, e.1 ≠ i) ∨
      (cmd ≠ [] ∧ ∃ s, (i, cmd, (ex.Exec s cmd).1) ∈ run.executed ∧
        (∀ e ∈ run.executed, e.1 = i → e = (i, cmd, (ex.Exec s cmd).1)) ∧
        run.resArr.getD i [] =
          if (ex.Exec s cmd).1.Stderr ≠ [] then [] else (ex.Exec s cmd).1.Stdout))

/-- The invariant of the probe loop before the probe `k`: one value has been
captured for each of the probes before `k`, as `ProbeCaptured` says, and the
executor has been called for probes before `k` only, in increasing order. -/
def ProbeInvariant (common : Common) (utils : Utils) (ex : Executor) (atb : AuditBench)
    (k : Nat) (run : ProbeRun ex.State) : Prop :=
  run.resArr.length = k ∧
  (∀ i, i < k → ProbeCaptured common utils ex atb run i) ∧
  (∀ e ∈ run.executed, e.1 < k) ∧
  (run.executed.map (fun e => e.1)).Pairwise (fun a b => a < b)

/-! ## Concrete collaborators, used to run the model on examples -/

/-- A small stand-in for the collaborators: `Sanitize` writes the `i`-th value
of the combination in place of `$i`, and the evaluator understands exactly the
expressions `lhs == rhs`, comparing the two sides as text. -/
def sampleEnv : Env where
  Sanitize := fun combArr expr =>
    combArr.enum.foldl (fun e p => ReplaceAll e ('$' :: Itoa (p.1 : Int)) p.2) expr
  Expression := GoString
  NewEvaluableExpression := fun s => some s
  Evaluate := fun s =>
    match Split s " == ".toList with
    | [a, b] => some (.bool (decide (a = b)))
    | _ => none

/-- An audit bench with the assertion `expr`, one probe parameter list per entry
of `params`, and both counters at zero. -/
def sampleBench (expr : String) (params : List (List String)) : AuditBench :=
  { Name := "sample".toList, AuditCommand := [],
    CommandParams := params.map (fun ps => ps.map String.toList),
    EvalExpr := expr.toList, TestResult := { NumOfExec := 0, NumOfSuccess := 0 } }

/-- The world of a fresh test with the assertion `expr`. -/
def sampleWorld (expr : String) : World :=
  { atb := sampleBench expr [], evaluated := [] }

/-- Illustrative values for the constants of `internal/common`. -/
def sampleCommon : Common :=
  { NotValidNumber := "NotValidNumber".toList, NotValidString := "NotValidString".toList,
    SingleValue := "SingleValue".toList }

/-- A stand-in for `utils.SeparateExpr`: the whole assertion is one single-value
component. -/
def sampleUtils : Utils :=
  { SeparateExpr := fun expr => [{ ExprType := sampleCommon.SingleValue, Expr := expr }] }

/-- A stand-in for the probe executor, without a state of its own: the command
`echo text` prints `text` and a line terminator, any other command fails with
a message on the standard error. -/
def sampleExecutor : Executor :=
  { State := Unit,
    Exec := fun _ cmd =>
      if "echo ".toList.isPrefixOf cmd then
        ({ Stdout := cmd.drop 5 ++ "\n".toList, Stderr := [] }, ())
      else ({ Stdout := [], Stderr := "command not found".toList }, ()) }

/-- An audit bench with the probe commands `cmds`, their parameter lists
`params`, the assertion `expr` and both counters at zero. -/
def sampleTest (cmds : List String) (params : List (List String)) (expr : String) :
    AuditBench :=
  { sampleBench expr params with AuditCommand := cmds.map String.toList }

/-! ## The combinatorial evaluation -/

theorem rangeOutputs_eq (env : Env)
    (recur : ValidateExprData → List GoString → World → Except Fault World)
    (ved next : ValidateExprData) (n : Nat) (after : GoString → World → World)
    (combArr : List GoString) (hnext : ved.NextValidExprData = .ok next)
    (hbody : ∀ o w, ∃ w1, recur next (combArr ++ [o]) w = .ok w1 ∧
      (if ved.origSize = ((combArr ++ [o]).length : Int) then
        evalCombination env w1 (combArr ++ [o]) else w1) = after o w) :
    ∀ (os : List GoString) (w : World),
      rangeOutputs env recur ved n os combArr w =
        .ok (combArr,
          (os.filter (fun o => !decide (o.length = 0 ∧ n > 1))).foldl
            (fun w o => after o w) w) := by
  intro os
  induction os with
  | nil => intro w; simp [rangeOutputs]
  | cons o os ih =>
    intro w
    by_cases hc : o.length = 0 ∧ n > 1
    · have hp : (!decide (o.length = 0 ∧ n > 1)) = false := by
        rw [decide_eq_true hc]; rfl
      rw [rangeOutputs, if_pos hc, ih, List.filter_cons, hp]
      rfl
    · obtain ⟨w1, h1, h2⟩ := hbody o w
      rw [rangeOutputs, if_neg hc]
      simp only [hnext, h1, h2, List.dropLast_concat]
      have hp : (!decide (o.length = 0 ∧ n > 1)) = true := by
        rw [decide_eq_false hc]; rfl
      rw [ih, List.filter_cons, hp]
      rfl

theorem foldl_combinations_cons (g : World → List GoString → World)
    (cs : List (List GoString)) :
    ∀ (l : List GoString) (w : World),
      (l.flatMap (fun o => cs.map (fun c => o :: c))).foldl g w =
        l.foldl (fun w o => cs.foldl (fun w c => g w (o :: c)) w) w := by
  intro l
  induction l with
  | nil => intro w; rfl
  | cons o l ih =>
    intro w
    rw [List.flatMap_cons, List.foldl_append, List.foldl_map, ih, List.foldl_cons]

theorem evalExpressionFuel_nil (env : Env) (fuel : Nat) (ved : ValidateExprData)
    (combArr : List GoString) (w : World) (h : ved.resultArr = []) :
    evalExpressionFuel env fuel ved combArr w = .ok w := by
  cases fuel <;> simp [evalExpressionFuel, h]

theorem NextValidExprData_tail (ved : ValidateExprData) (r0 : GoString)
    (rest : List GoString) (hr : ved.resultArr = r0 :: rest)
    (hi : ved.index = ((r0 :: rest).length : Int)) :
    ved.NextValidExprData = .ok
      { resultArr := rest, index := rest.length, origSize := ved.origSize,
        Total := 0, Match := 0 } := by
  have h1 : ved.index = (rest.length : Int) + 1 := by
    rw [hi]; simp
  have h2 : ved.index.toNat = rest.length + 1 := by
    rw [h1]; omega
  unfold ValidateExprData.NextValidExprData
  rw [if_pos (by rw [hr, h1]; simp), hr, h2]
  simp [h1]

theorem evalExpressionFuel_eq (env : Env) :
    ∀ (resultArr : List GoString) (fuel : Nat) (ved : ValidateExprData)
      (combArr : List GoString) (w : World),
      ved.resultArr = resultArr → resultArr ≠ [] →
      ved.index = (resultArr.length : Int) →
      ved.origSize = (combArr.length : Int) + (resultArr.length : Int) →
      resultArr.length ≤ fuel →
      evalExpressionFuel env fuel ved combArr w =
        .ok ((combinations (resultArr.map retainedLines)).foldl
          (fun w c => evalCombination env w (combArr ++ c)) w) := by
  intro resultArr
  induction resultArr with
  | nil => intro _ _ _ _ _ h; exact absurd rfl h
  | cons r0 rest ih =>
    intro fuel ved combArr w hr _ hi ho hf
    obtain ⟨f, rfl⟩ : ∃ f, fuel = f + 1 := ⟨fuel - 1, by simp at hf; omega⟩
    have hnext := NextValidExprData_tail ved r0 rest hr hi
    have hloop := rangeOutputs_eq env (evalExpressionFuel env f) ved _
      (Split r0 "\n".toList).length
      (fun o w => (combinations (rest.map retainedLines)).foldl
        (fun w c => evalCombination env w (combArr ++ o :: c)) w)
      combArr hnext (by
        intro o w'
        cases rest with
        | nil =>
          refine ⟨w', evalExpressionFuel_nil env f _ _ _ rfl, ?_⟩
          rw [if_pos (by rw [ho]; simp)]
          rfl
        | cons r1 rest1 =>
          refine ⟨_, ih f _ (combArr ++ [o]) w' rfl (by simp) rfl
            (by rw [ho]; simp; omega) (by simp at hf ⊢; omega), ?_⟩
          rw [if_neg (by rw [ho]; simp; omega)]
          simp only [List.append_assoc, List.singleton_append])
      (Split r0 "\n".toList) w
    rw [evalExpressionFuel]
    simp only [hr]
    rw [hloop]
    simp only [List.map_cons, combinations]
    rw [foldl_combinations_cons (fun w c => evalCombination env w (combArr ++ c))]
    rfl

theorem evalCommandExpr_fst (env : Env) (atb : AuditBench) (expr : GoString) :
    (evalCommandExpr env atb expr).1 = if evaluatesTrue env expr then 1 else 0 := by
  cases h1 : env.NewEvaluableExpression expr with
  | none => simp [evalCommandExpr, evaluatesTrue, h1]
  | some e =>
    cases h2 : env.Evaluate e with
    | none => simp [evalCommandExpr, evaluatesTrue, h1, h2]
    | some v =>
      cases v with
      | bool b => cases b <;> simp [evalCommandExpr, evaluatesTrue, h1, h2]
      | number x => simp [evalCommandExpr, evaluatesTrue, h1, h2]
      | str s => simp [evalCommandExpr, evaluatesTrue, h1, h2]
      | other => simp [evalCommandExpr, evaluatesTrue, h1, h2]

theorem foldl_evalCombination (env : Env) :
    ∀ (cs : List (List GoString)) (w : World),
      cs.foldl (fun w c => evalCombination env w c) w = worldAfter env w cs := by
  intro cs
  induction cs with
  | nil =>
    intro w
    obtain ⟨⟨n, a, p, e, ⟨x, y⟩⟩, ev⟩ := w
    simp [worldAfter]
  | cons c cs ih =>
    intro w
    rw [List.foldl_cons, ih]
    obtain ⟨⟨n, a, p, e, ⟨x, y⟩⟩, ev⟩ := w
    simp only [worldAfter, evalCombination, evalCommandExpr_fst, List.length_cons,
      List.countP_cons, List.append_assoc, List.singleton_append]
    by_cases ht : evaluatesTrue env (env.Sanitize c e) = true
    · simp [ht]; constructor <;> ring
    · simp [ht]; ring

/-- The run of `evalExpression` that `runTests` starts: on a non-empty list of
probe outputs every combination of retained lines is evaluated, in the order
of `combinations`. -/
theorem evalExpression_run (env : Env) (outputs : List GoString) (w : World)
    (h : outputs ≠ []) :
    evalExpression env (NewValidExprData outputs) [] w =
      .ok (worldAfter env w (combinations (outputs.map retainedLines))) := by
  unfold evalExpression
  rw [evalExpressionFuel_eq env outputs _ (NewValidExprData outputs) [] w rfl h rfl
    (by simp [NewValidExprData]) (by simp [NewValidExprData])]
  simp only [List.nil_append]
  rw [foldl_evalCombination]

theorem evalExpression_run_nil (env : Env) (w : World) :
    evalExpression env (NewValidExprData []) [] w = .ok w := by
  rfl

theorem combinations_length :
    ∀ (ls : List (List GoString)),
      (combinations ls).length = (ls.map List.length).prod := by
  intro ls
  induction ls with
  | nil => rfl
  | cons l ls ih =>
    simp only [combinations, List.length_flatMap, List.map_cons, List.prod_cons]
    have : (List.length ∘ fun o => (combinations ls).map (fun c => o :: c)) =
        fun _ => (ls.map List.length).prod := by
      funext o; simp [ih]
    rw [this]
    simp

theorem NextValidExprData_length (ved next : ValidateExprData)
    (h : ved.NextValidExprData = .ok next) :
    next.resultArr.length + 1 ≤ ved.resultArr.length := by
  unfold ValidateExprData.NextValidExprData at h
  split at h
  · rename_i hc
    cases h
    simp only [List.length_drop, List.length_take]
    omega
  · cases h

theorem rangeOutputs_congr (env : Env)
    (r1 r2 : ValidateExprData → List GoString → World → Except Fault World)
    (ved : ValidateExprData) (n : Nat)
    (h : ∀ next, ved.NextValidExprData = .ok next → ∀ c w, r1 next c w = r2 next c w) :
    ∀ (os combArr : List GoString) (w : World),
      rangeOutputs env r1 ved n os combArr w = rangeOutputs env r2 ved n os combArr w := by
  intro os
  induction os with
  | nil => intro combArr w; rfl
  | cons o os ih =>
    intro combArr w
    rw [rangeOutputs, rangeOutputs]
    split
    · exact ih combArr w
    · cases hn : ved.NextValidExprData with
      | error e => rfl
      | ok next =>
        simp only []
        rw [h next hn]
        cases r2 next (combArr ++ [o]) w with
        | error e => rfl
        | ok w1 => exact ih _ _

/-- The recursion budget does not matter once it is at least `len(resultArr)`. -/
theorem evalExpressionFuel_fuel_irrelevant (env : Env) :
    ∀ (f1 f2 : Nat) (ved : ValidateExprData) (combArr : List GoString) (w : World),
      ved.resultArr.length ≤ f1 → ved.resultArr.length ≤ f2 →
      evalExpressionFuel env f1 ved combArr w = evalExpressionFuel env f2 ved combArr w := by
  intro f1
  induction f1 with
  | zero =>
    intro f2 ved combArr w h1 _
    have : ved.resultArr = [] := List.length_eq_zero.1 (Nat.le_zero.1 h1)
    rw [evalExpressionFuel_nil env 0 ved combArr w this,
      evalExpressionFuel_nil env f2 ved combArr w this]
  | succ a ih =>
    intro f2 ved combArr w h1 h2
    cases hr : ved.resultArr with
    | nil =>
      rw [evalExpressionFuel_nil env _ ved combArr w hr,
        evalExpressionFuel_nil env f2 ved combArr w hr]
    | cons r0 rest =>
      obtain ⟨b, rfl⟩ : ∃ b, f2 = b + 1 := ⟨f2 - 1, by rw [hr] at h2; simp at h2; omega⟩
      rw [evalExpressionFuel, evalExpressionFuel]
      simp only [hr]
      rw [rangeOutputs_congr env (evalExpressionFuel env a) (evalExpressionFuel env b) ved _
        (fun next hn c w' => ih b next c w'
          (by have := NextValidExprData_length ved next hn; omega)
          (by have := NextValidExprData_length ved next hn; omega))]

theorem rangeOutputs_ne_fuel (env : Env)
    (recur : ValidateExprData → List GoString → World → Except Fault World)
    (ved : ValidateExprData) (n : Nat)
    (h : ∀ next, ved.NextValidExprData = .ok next → ∀ c w, recur next c w ≠ .error .fuel) :
    ∀ (os combArr : List GoString) (w : World),
      rangeOutputs env recur ved n os combArr w ≠ .error .fuel := by
  intro os
  induction os with
  | nil => intro combArr w e; cases e
  | cons o os ih =>
    intro combArr w
    rw [rangeOutputs]
    split
    · exact ih combArr w
    · cases hn : ved.NextValidExprData with
      | error e =>
        unfold ValidateExprData.NextValidExprData at hn
        split at hn
        · cases hn
        · cases hn
          intro e'; cases e'
      | ok next =>
        simp only []
        cases hr : recur next (combArr ++ [o]) w with
        | error e =>
          intro e'
          simp only [] at e'
          cases e'
          exact h next hn _ _ hr
        | ok w1 => exact ih _ _

/-- The model never runs out of its recursion budget: `evalExpression` either
returns or stops on a panic of the Go program. -/
theorem evalExpressionFuel_ne_fuel (env : Env) :
    ∀ (fuel : Nat) (ved : ValidateExprData) (combArr : List GoString) (w : World),
      ved.resultArr.length ≤ fuel →
      evalExpressionFuel env fuel ved combArr w ≠ .error .fuel := by
  intro fuel
  induction fuel with
  | zero =>
    intro ved combArr w h
    rw [evalExpressionFuel_nil env 0 ved combArr w (List.length_eq_zero.1 (Nat.le_zero.1 h))]
    intro e; cases e
  | succ a ih =>
    intro ved combArr w h
    cases hr : ved.resultArr with
    | nil =>
      rw [evalExpressionFuel_nil env _ ved combArr w hr]
      intro e; cases e
    | cons r0 rest =>
      rw [evalExpressionFuel]
      simp only [hr]
      have hloop := rangeOutputs_ne_fuel env (evalExpressionFuel env a) ved
        (Split r0 "\n".toList).length
        (fun next hn c w' => ih next c w'
          (by have := NextValidExprData_length ved next hn; omega))
        (Split r0 "\n".toList) combArr w
      cases hl : rangeOutputs env (evalExpressionFuel env a) ved (Split r0 "\n".toList).length
          (Split r0 "\n".toList) combArr w with
      | error e =>
        intro e'
        simp only [] at e'
        cases e'
        exact hloop hl
      | ok p => intro e; cases e

theorem combinations_perm_sections :
    ∀ (ls : List (List GoString)), (combinations ls).Perm (List.sections ls) := by
  intro ls
  induction ls with
  | nil => exact List.Perm.refl _
  | cons l ls ih =>
    have h1 : (l.flatMap fun o => (combinations ls).map (fun c => o :: c)).Perm
        (l.flatMap fun o => (List.sections ls).map (fun c => o :: c)) :=
      List.Perm.flatMap_left l (fun o _ => ih.map _)
    have h2 : (l.flatMap fun o => (List.sections ls).map (fun c => o :: c)).Perm
        ((List.sections ls).flatMap fun s => l.map (fun a => a :: s)) := by
      rw [← Multiset.coe_eq_coe, ← Multiset.coe_bind, ← Multiset.coe_bind]
      simp only [← Multiset.map_coe]
      exact Multiset.bind_map_comm _ _
    exact h1.trans h2

theorem retainedLines_nil : retainedLines [] = [[]] := by
  decide

theorem prod_length_pos :
    ∀ (ls : List (List GoString)), (∀ l ∈ ls, l ≠ []) → 0 < (ls.map List.length).prod := by
  intro ls
  induction ls with
  | nil => intro _; simp
  | cons l ls ih =>
    intro h
    simp only [List.map_cons, List.prod_cons]
    exact Nat.mul_pos (List.length_pos.2 (h l (by simp)))
      (ih (fun l' hl' => h l' (by simp [hl'])))

theorem prod_length_zero :
    ∀ (ls : List (List GoString)), [] ∈ ls → (ls.map List.length).prod = 0 := by
  intro ls h
  apply List.prod_eq_zero
  exact List.mem_map.2 ⟨[], h, rfl⟩

/-- C1: started on `NewValidExprData(outputs, test)` with an empty combination
buffer, on a non-empty list of probe outputs that all have a retained line,
`evalExpression` returns and has increased `NumOfExec` by exactly the product of
the numbers of retained lines, whatever the evaluator answers; that product is
positive, and the empty output has exactly one retained line (the empty one), so
it contributes the factor 1. -/
theorem evalExpression_numOfExec_product (env : Env) (outputs : List GoString)
    (w : World) (hne : outputs ≠ [])
    (hret : ∀ o ∈ outputs, retainedLines o ≠ []) :
    (∃ w1, evalExpression env (NewValidExprData outputs) [] w = .ok w1 ∧
      w1.atb.TestResult.NumOfExec = w.atb.TestResult.NumOfExec +
        (((outputs.map (fun o => (retainedLines o).length)).prod : Nat) : Int) ∧
      0 < (outputs.map (fun o => (retainedLines o).length)).prod) ∧
    (retainedLines []).length = 1 := by
  refine ⟨⟨_, evalExpression_run env outputs w hne, ?_, ?_⟩, by decide⟩
  · simp only [worldAfter, combinations_length, List.map_map]
    rfl
  · have := prod_length_pos (outputs.map retainedLines) (by
      intro l hl
      obtain ⟨o, ho, rfl⟩ := List.mem_map.1 hl
      exact hret o ho)
    simpa only [List.map_map] using this

/-- Witness of C1: the two probes `"1\n2\n"` and `"true\n"` give 2 × 1 = 2
evaluations. -/
theorem evalExpression_numOfExec_product_witness :
    (["1\n2\n".toList, "true\n".toList] ≠ []) ∧
    (∀ o ∈ ["1\n2\n".toList, "true\n".toList], retainedLines o ≠ []) ∧
    ((∃ w1, evalExpression sampleEnv
        (NewValidExprData ["1\n2\n".toList, "true\n".toList]) []
        (sampleWorld "$1 == true") = .ok w1 ∧
      w1.atb.TestResult.NumOfExec = (sampleWorld "$1 == true").atb.TestResult.NumOfExec +
        (((["1\n2\n".toList, "true\n".toList].map
          (fun o => (retainedLines o).length)).prod : Nat) : Int) ∧
      0 < (["1\n2\n".toList, "true\n".toList].map
          (fun o => (retainedLines o).length)).prod) ∧
    (retainedLines []).length = 1) ∧
    (["1\n2\n".toList, "true\n".toList].map (fun o => (retainedLines o).length)).prod = 2 :=
  ⟨by decide, by decide,
    evalExpression_numOfExec_product sampleEnv ["1\n2\n".toList, "true\n".toList]
      (sampleWorld "$1 == true") (by decide) (by decide),
    by decide⟩

/-- C2, as stated, fails: the output `"\n"` has no retained line, and the run on
it evaluates nothing, so `NumOfExec` grows by 0 and not by the floored product
`max 1 0 = 1`. -/
theorem evalExpression_floor_counterexample :
    retainedLines "\n".toList = [] ∧
    (["\n".toList].map (fun o => max 1 (retainedLines o).length)).prod = 1 ∧
    (∃ w1, evalExpression sampleEnv (NewValidExprData ["\n".toList]) []
        (sampleWorld "$0 == a") = .ok w1 ∧
      w1.atb.TestResult.NumOfExec = (sampleWorld "$0 == a").atb.TestResult.NumOfExec) ∧
    ¬ (∃ w1, evalExpression sampleEnv (NewValidExprData ["\n".toList]) []
        (sampleWorld "$0 == a") = .ok w1 ∧
      w1.atb.TestResult.NumOfExec = (sampleWorld "$0 == a").atb.TestResult.NumOfExec +
        (((["\n".toList].map (fun o => max 1 (retainedLines o).length)).prod : Nat) : Int)) := by
  refine ⟨by decide, by decide, ⟨_, rfl, by decide⟩, ?_⟩
  rintro ⟨w1, h1, h2⟩
  have h3 : evalExpression sampleEnv (NewValidExprData ["\n".toList]) []
      (sampleWorld "$0 == a") = .ok (sampleWorld "$0 == a") := rfl
  rw [h3] at h1
  cases h1
  revert h2
  decide

/-- C2, amended: on every non-empty list of probe outputs `evalExpression`
returns and has increased `NumOfExec` by the product of the numbers of retained
lines, with no flooring: as soon as one output has no retained line the product
is 0, nothing is evaluated and `NumOfExec` is unchanged. -/
theorem evalExpression_numOfExec_unfloored (env : Env) (outputs : List GoString)
    (w : World) (hne : outputs ≠ []) :
    ∃ w1, evalExpression env (NewValidExprData outputs) [] w = .ok w1 ∧
      w1.atb.TestResult.NumOfExec = w.atb.TestResult.NumOfExec +
        (((outputs.map (fun o => (retainedLines o).length)).prod : Nat) : Int) ∧
      ((∃ o ∈ outputs, retainedLines o = []) →
        w1.atb.TestResult.NumOfExec = w.atb.TestResult.NumOfExec ∧
        w1.evaluated = w.evaluated) := by
  refine ⟨_, evalExpression_run env outputs w hne, ?_, ?_⟩
  · simp only [worldAfter, combinations_length, List.map_map]
    rfl
  · rintro ⟨o, ho, hz⟩
    have hlen : (combinations (outputs.map retainedLines)).length = 0 := by
      rw [combinations_length]
      exact prod_length_zero _ (List.mem_map.2 ⟨o, ho, hz⟩)
    have hnil : combinations (outputs.map retainedLines) = [] :=
      List.length_eq_zero.1 hlen
    simp [worldAfter, hnil]

/-- Witness of the amended C2: with the outputs `"a\nb"` and `"\n"` nothing is
evaluated. -/
theorem evalExpression_numOfExec_unfloored_witness :
    (["a\nb".toList, "\n".toList] ≠ []) ∧
    ∃ w1, evalExpression sampleEnv (NewValidExprData ["a\nb".toList, "\n".toList]) []
        (sampleWorld "$0 == a") = .ok w1 ∧
      w1.atb.TestResult.NumOfExec = (sampleWorld "$0 == a").atb.TestResult.NumOfExec +
        (((["a\nb".toList, "\n".toList].map
          (fun o => (retainedLines o).length)).prod : Nat) : Int) ∧
      ((∃ o ∈ ["a\nb".toList, "\n".toList], retainedLines o = []) →
        w1.atb.TestResult.NumOfExec = (sampleWorld "$0 == a").atb.TestResult.NumOfExec ∧
        w1.evaluated = (sampleWorld "$0 == a").evaluated) :=
  ⟨by decide,
    evalExpression_numOfExec_unfloored sampleEnv ["a\nb".toList, "\n".toList]
      (sampleWorld "$0 == a") (by decide)⟩

/-- C3: on every list of `k ≥ 1` probe outputs `evalExpression` returns, and the
combinations it hands to `Sanitize` and the evaluator are a rearrangement of the
Cartesian product (`List.sections`) of the retained-line lists, each element
of the product (selection of one position per probe) being evaluated once and
no other list at all: a list is evaluated if and only if it has one entry per
probe, the `i`-th a retained line of the `i`-th output; so every evaluated
combination has length `k`, and `NumOfExec` grows by the number of combinations
evaluated. -/
theorem evalExpression_evaluates_product (env : Env) (outputs : List GoString)
    (w : World) (hne : outputs ≠ []) :
    ∃ w1 evaluated, evalExpression env (NewValidExprData outputs) [] w = .ok w1 ∧
      w1.evaluated = w.evaluated ++ evaluated ∧
      evaluated.Perm (List.sections (outputs.map retainedLines)) ∧
      (∀ c, c ∈ evaluated ↔ List.Forall₂ (fun line o => line ∈ retainedLines o) c outputs) ∧
      (∀ c ∈ evaluated, c.length = outputs.length) ∧
      w1.atb.TestResult.NumOfExec = w.atb.TestResult.NumOfExec + (evaluated.length : Int) := by
  have hperm := combinations_perm_sections (outputs.map retainedLines)
  have hmem : ∀ c, c ∈ combinations (outputs.map retainedLines) ↔
      List.Forall₂ (fun line o => line ∈ retainedLines o) c outputs := by
    intro c
    rw [hperm.mem_iff, List.mem_sections, List.forall₂_map_right_iff]
  refine ⟨_, combinations (outputs.map retainedLines),
    evalExpression_run env outputs w hne, rfl, hperm, hmem, ?_, rfl⟩
  intro c hc
  exact ((hmem c).1 hc).length_eq

/-- Witness of C3: the outputs `"a\nb"` and `"x\ny"`. -/
theorem evalExpression_evaluates_product_witness :
    (["a\nb".toList, "x\ny".toList] ≠ []) ∧
    ∃ w1 evaluated, evalExpression sampleEnv
        (NewValidExprData ["a\nb".toList, "x\ny".toList]) []
        (sampleWorld "$0 == $1") = .ok w1 ∧
      w1.evaluated = (sampleWorld "$0 == $1").evaluated ++ evaluated ∧
      evaluated.Perm (List.sections (["a\nb".toList, "x\ny".toList].map retainedLines)) ∧
      (∀ c, c ∈ evaluated ↔ List.Forall₂ (fun line o => line ∈ retainedLines o) c
        ["a\nb".toList, "x\ny".toList]) ∧
      (∀ c ∈ evaluated, c.length = ["a\nb".toList, "x\ny".toList].length) ∧
      w1.atb.TestResult.NumOfExec =
        (sampleWorld "$0 == $1").atb.TestResult.NumOfExec + (evaluated.length : Int) :=
  ⟨by decide,
    evalExpression_evaluates_product sampleEnv ["a\nb".toList, "x\ny".toList]
      (sampleWorld "$0 == $1") (by decide)⟩

theorem evalExpression_total (env : Env) (outputs : List GoString) (w : World) :
    evalExpression env (NewValidExprData outputs) [] w =
      .ok (if outputs = [] then w
        else worldAfter env w (combinations (outputs.map retainedLines))) := by
  by_cases h : outputs = []
  · subst h; rfl
  · rw [if_neg h, evalExpression_run env outputs w h]

/-- C4: for every list of probe outputs and every evaluator `evalExpression`
returns; `NumOfExec` has grown by one per evaluated combination and
`NumOfSuccess` by one per evaluated combination whose sanitized expression
evaluates to the boolean `true`.  Hence the growth of `NumOfSuccess` lies between
0 and the growth of `NumOfExec`, no counter decreases (not even in a single
evaluation step), and when every evaluated combination is true a test that
started with equal counters ends with `NumOfSuccess == NumOfExec`. -/
theorem evalExpression_counters (env : Env) (outputs : List GoString) (w : World) :
    ∃ w1 evaluated, evalExpression env (NewValidExprData outputs) [] w = .ok w1 ∧
      w1.evaluated = w.evaluated ++ evaluated ∧
      w1.atb.TestResult.NumOfExec = w.atb.TestResult.NumOfExec + (evaluated.length : Int) ∧
      w1.atb.TestResult.NumOfSuccess = w.atb.TestResult.NumOfSuccess +
        ((evaluated.countP
          (fun c => evaluatesTrue env (env.Sanitize c w.atb.EvalExpr)) : Nat) : Int) ∧
      0 ≤ w1.atb.TestResult.NumOfSuccess - w.atb.TestResult.NumOfSuccess ∧
      w1.atb.TestResult.NumOfSuccess - w.atb.TestResult.NumOfSuccess ≤
        w1.atb.TestResult.NumOfExec - w.atb.TestResult.NumOfExec ∧
      w.atb.TestResult.NumOfExec ≤ w1.atb.TestResult.NumOfExec ∧
      w.atb.TestResult.NumOfSuccess ≤ w1.atb.TestResult.NumOfSuccess ∧
      (∀ (v : World) (c : List GoString),
        v.atb.TestResult.NumOfExec + 1 = (evalCombination env v c).atb.TestResult.NumOfExec ∧
        v.atb.TestResult.NumOfSuccess ≤ (evalCombination env v c).atb.TestResult.NumOfSuccess ∧
        (evalCombination env v c).atb.TestResult.NumOfSuccess =
          v.atb.TestResult.NumOfSuccess +
            (if evaluatesTrue env (env.Sanitize c v.atb.EvalExpr) then 1 else 0)) ∧
      ((∀ c ∈ evaluated, evaluatesTrue env (env.Sanitize c w.atb.EvalExpr) = true) →
        w.atb.TestResult.NumOfSuccess = w.atb.TestResult.NumOfExec →
        w1.atb.TestResult.NumOfSuccess = w1.atb.TestResult.NumOfExec) := by
  have hstep : ∀ (v : World) (c : List GoString),
      v.atb.TestResult.NumOfExec + 1 = (evalCombination env v c).atb.TestResult.NumOfExec ∧
      v.atb.TestResult.NumOfSuccess ≤ (evalCombination env v c).atb.TestResult.NumOfSuccess ∧
      (evalCombination env v c).atb.TestResult.NumOfSuccess =
        v.atb.TestResult.NumOfSuccess +
          (if evaluatesTrue env (env.Sanitize c v.atb.EvalExpr) then 1 else 0) := by
    intro v c
    simp only [evalCombination, evalCommandExpr_fst]
    refine ⟨trivial, ?_, trivial⟩
    split <;> omega
  have hcount : ∀ (cs : List (List GoString)),
      ((cs.countP (fun c => evaluatesTrue env (env.Sanitize c w.atb.EvalExpr)) : Nat) : Int) ≤
        (cs.length : Int) := fun cs => by
    exact_mod_cast List.countP_le_length _
  by_cases h : outputs = []
  · subst h
    refine ⟨w, [], rfl, by simp, by simp, by simp, by simp, by simp, le_refl _, le_refl _,
      hstep, fun _ h => h⟩
  · refine ⟨_, combinations (outputs.map retainedLines),
      evalExpression_run env outputs w h, rfl, rfl, rfl, ?_, ?_, ?_, ?_, hstep, ?_⟩
    · simp only [worldAfter]; omega
    · have := hcount (combinations (outputs.map retainedLines))
      simp only [worldAfter]; omega
    · simp only [worldAfter]; omega
    · simp only [worldAfter]; omega
    · intro hall heq
      have hc : (combinations (outputs.map retainedLines)).countP
          (fun c => evaluatesTrue env (env.Sanitize c w.atb.EvalExpr)) =
          (combinations (outputs.map retainedLines)).length :=
        List.countP_eq_length.2 hall
      simp only [worldAfter, hc, heq]

/-- Witness of C4 (scenario 1 of the specification): one probe returning
`"ns-a\nns-b\n"` under the assertion `'$0' == 'ns-a'` is evaluated twice and
succeeds once. -/
theorem evalExpression_counters_witness :
    (∃ w1 evaluated, evalExpression sampleEnv (NewValidExprData ["ns-a\nns-b\n".toList]) []
        (sampleWorld "'$0' == 'ns-a'") = .ok w1 ∧
      w1.evaluated = (sampleWorld "'$0' == 'ns-a'").evaluated ++ evaluated ∧
      w1.atb.TestResult.NumOfExec =
        (sampleWorld "'$0' == 'ns-a'").atb.TestResult.NumOfExec + (evaluated.length : Int) ∧
      w1.atb.TestResult.NumOfSuccess =
        (sampleWorld "'$0' == 'ns-a'").atb.TestResult.NumOfSuccess +
        ((evaluated.countP (fun c => evaluatesTrue sampleEnv
          (sampleEnv.Sanitize c (sampleWorld "'$0' == 'ns-a'").atb.EvalExpr)) : Nat) : Int)) ∧
    (∃ w1, evalExpression sampleEnv (NewValidExprData ["ns-a\nns-b\n".toList]) []
        (sampleWorld "'$0' == 'ns-a'") = .ok w1 ∧
      w1.atb.TestResult = { NumOfExec := 2, NumOfSuccess := 1 }) := by
  obtain ⟨w1, evaluated, h1, h2, h3, h4, _⟩ :=
    evalExpression_counters sampleEnv ["ns-a\nns-b\n".toList] (sampleWorld "'$0' == 'ns-a'")
  exact ⟨⟨w1, evaluated, h1, h2, h3, h4⟩, ⟨_, rfl, by decide⟩⟩

/-- C5, as stated, fails: for the outputs `"a\nb"` and `"x\ny"` the combinations
are evaluated in the order (a,x), (a,y), (b,x), (b,y), in which the line of the
first probe stays fixed while the second probe runs through its lines, and not
in the order (a,x), (b,x), (a,y), (b,y). -/
theorem evalExpression_order_counterexample :
    ∃ w1, evalExpression sampleEnv (NewValidExprData ["a\nb".toList, "x\ny".toList]) []
        (sampleWorld "$0 == $1") = .ok w1 ∧
      w1.evaluated = [["a".toList, "x".toList], ["a".toList, "y".toList],
        ["b".toList, "x".toList], ["b".toList, "y".toList]] ∧
      w1.evaluated ≠ [["a".toList, "x".toList], ["b".toList, "x".toList],
        ["a".toList, "y".toList], ["b".toList, "y".toList]] :=
  ⟨_, rfl, by decide, by decide⟩

/-- C5, amended: `evalExpression` evaluates the combinations with the first
probe varying slowest and the last probe fastest.  On the outputs
`first :: rest`, for each retained line of the first probe in turn, all the
combinations of the remaining probes are evaluated (in the same order, which is
the order of `combinations`) with that line in front; with a single probe its
retained lines are evaluated in their order. -/
theorem evalExpression_order (env : Env) (first : GoString) (rest : List GoString)
    (w : World) :
    ∃ w1, evalExpression env (NewValidExprData (first :: rest)) [] w = .ok w1 ∧
      w1.evaluated = w.evaluated ++ combinations ((first :: rest).map retainedLines) ∧
      combinations ((first :: rest).map retainedLines) =
        (retainedLines first).flatMap (fun line =>
          (combinations (rest.map retainedLines)).map (fun c => line :: c)) ∧
      (rest = [] → combinations ((first :: rest).map retainedLines) =
        (retainedLines first).map (fun line => [line])) :=
  ⟨_, evalExpression_run env (first :: rest) w (by simp), rfl, rfl, by
    intro h
    subst h
    simp only [List.map_cons, List.map_nil, combinations, List.map_cons, List.map_nil]
    induction retainedLines first with
    | nil => rfl
    | cons a l ih => simp only [List.flatMap_cons, List.map_cons, ih]; rfl⟩

/-- The evaluation order on the outputs `"a\nb"` and `"x\ny"`, obtained from
the amended C5. -/
theorem evalExpression_order_example :
    ∃ w1, evalExpression sampleEnv (NewValidExprData ["a\nb".toList, "x\ny".toList]) []
        (sampleWorld "$0 == $1") = .ok w1 ∧
      w1.evaluated = [["a".toList, "x".toList], ["a".toList, "y".toList],
        ["b".toList, "x".toList], ["b".toList, "y".toList]] := by
  obtain ⟨w1, h1, h2, _⟩ := evalExpression_order sampleEnv "a\nb".toList ["x\ny".toList]
    (sampleWorld "$0 == $1")
  exact ⟨w1, h1, by rw [h2]; decide⟩

/-- C6, as stated, fails: the single output `"\n"` has no retained line, so
with counters starting at zero and an evaluator that is never true the run ends
with `NumOfExec = 0`, and `AddFailedMessages` does not record the test. -/
theorem evalExpression_all_false_counterexample :
    (["\n".toList] ≠ []) ∧
    (∀ c, evaluatesTrue { sampleEnv with Evaluate := fun _ => some (.bool false) } c = false) ∧
    ∃ w1, evalExpression { sampleEnv with Evaluate := fun _ => some (.bool false) }
        (NewValidExprData ["\n".toList]) [] (sampleWorld "$0 == a") = .ok w1 ∧
      ¬ (w1.atb.TestResult.NumOfSuccess = 0 ∧ 0 < w1.atb.TestResult.NumOfExec) ∧
      (K8sAudit.AddFailedMessages { FailedTests := [], args := [] } w1.atb).FailedTests = [] :=
  ⟨by decide, fun _ => rfl, _, rfl, by decide, by decide⟩

/-- C6, amended: for a test whose counters start at zero, with at least one
probe output and every probe output having a retained line, if no combination
evaluates to true then after `evalExpression` `NumOfSuccess = 0` and
`NumOfExec > 0`, and `AddFailedMessages` appends the test to `FailedTests`. -/
theorem evalExpression_all_false (env : Env) (outputs : List GoString) (w : World)
    (bk : K8sAudit) (hne : outputs ≠ [])
    (hret : ∀ o ∈ outputs, retainedLines o ≠ [])
    (hzero : w.atb.TestResult = { NumOfExec := 0, NumOfSuccess := 0 })
    (hfalse : ∀ c ∈ combinations (outputs.map retainedLines),
      evaluatesTrue env (env.Sanitize c w.atb.EvalExpr) = false) :
    ∃ w1, evalExpression env (NewValidExprData outputs) [] w = .ok w1 ∧
      w1.atb.TestResult.NumOfSuccess = 0 ∧
      0 < w1.atb.TestResult.NumOfExec ∧
      (bk.AddFailedMessages w1.atb).FailedTests = bk.FailedTests ++ [w1.atb] := by
  have hpos : 0 < (combinations (outputs.map retainedLines)).length := by
    rw [combinations_length]
    apply prod_length_pos
    intro l hl
    obtain ⟨o, ho, rfl⟩ := List.mem_map.1 hl
    exact hret o ho
  have hc : (combinations (outputs.map retainedLines)).countP
      (fun c => evaluatesTrue env (env.Sanitize c w.atb.EvalExpr)) = 0 := by
    rw [List.countP_eq_zero]
    intro c hc
    simp [hfalse c hc]
  have hs : (worldAfter env w (combinations (outputs.map retainedLines))).atb.TestResult.NumOfSuccess
      = 0 := by
    simp only [worldAfter, hc, hzero]; rfl
  have he : 0 < (worldAfter env w
      (combinations (outputs.map retainedLines))).atb.TestResult.NumOfExec := by
    simp only [worldAfter, hzero]; omega
  refine ⟨_, evalExpression_run env outputs w hne, hs, he, ?_⟩
  unfold K8sAudit.AddFailedMessages
  rw [if_pos (by rw [hs]; omega)]

/-- Witness of the amended C6: the probe output `"1\n2\n"` under the assertion
`$0 == 0` is evaluated twice, never succeeds, and the test is recorded as
failed. -/
theorem evalExpression_all_false_witness :
    (["1\n2\n".toList] ≠ []) ∧
    (∀ o ∈ ["1\n2\n".toList], retainedLines o ≠ []) ∧
    ((sampleWorld "$0 == 0").atb.TestResult = { NumOfExec := 0, NumOfSuccess := 0 }) ∧
    (∀ c ∈ combinations (["1\n2\n".toList].map retainedLines),
      evaluatesTrue sampleEnv
        (sampleEnv.Sanitize c (sampleWorld "$0 == 0").atb.EvalExpr) = false) ∧
    ∃ w1, evalExpression sampleEnv (NewValidExprData ["1\n2\n".toList]) []
        (sampleWorld "$0 == 0") = .ok w1 ∧
      w1.atb.TestResult.NumOfSuccess = 0 ∧
      0 < w1.atb.TestResult.NumOfExec ∧
      (K8sAudit.AddFailedMessages { FailedTests := [], args := [] } w1.atb).FailedTests =
        ([] : List AuditBench) ++ [w1.atb] :=
  ⟨by decide, by decide, rfl, by decide,
    evalExpression_all_false sampleEnv ["1\n2\n".toList] (sampleWorld "$0 == 0")
      { FailedTests := [], args := [] } (by decide) (by decide) rfl (by decide)⟩

/-! ## Parameter substitution -/

theorem replaceScan_of_not_contains (old new : GoString) :
    ∀ (s : GoString), Contains s old = false → replaceScan old new 0 s = s := by
  intro s
  induction s with
  | nil => intro _; rfl
  | cons x xs ih =>
    intro h
    simp only [Contains, Bool.or_eq_false_iff] at h
    rw [replaceScan, if_neg (by simp [h.1]), ih h.2]

theorem contains_nil : ∀ (s : GoString), Contains s [] = true := by
  intro s
  cases s <;> simp [Contains]

theorem ReplaceAll_of_not_contains (s old new : GoString) (h : Contains s old = false) :
    ReplaceAll s old new = s := by
  unfold ReplaceAll
  by_cases h1 : old = new
  · rw [if_pos h1]
  · rw [if_neg h1]
    by_cases h2 : old = []
    · subst h2
      rw [contains_nil] at h
      cases h
    · rw [if_neg h2]
      exact replaceScan_of_not_contains old new s h

theorem contains_cons_of_not_mem (c : Char) (t : GoString) :
    ∀ (s : GoString), c ∉ s → Contains s (c :: t) = false := by
  intro s
  induction s with
  | nil => intro _; rfl
  | cons x xs ih =>
    intro h
    have hx : c ≠ x := fun e => h (by simp [e])
    have hxs : c ∉ xs := fun e => h (by simp [e])
    simp [Contains, ih hxs, List.isPrefixOf, hx]

theorem rangeParams_eq (common : Common) (val : GoString) (resArr : List GoString) :
    ∀ (params : List GoString),
      rangeParams common val resArr params =
        match firstInRange resArr params with
        | none => .ok val
        | some x => substituteAt common val resArr x := by
  intro params
  induction params with
  | nil => rfl
  | cons p ps ih =>
    rw [rangeParams, firstInRange]
    cases hp : Atoi p with
    | none => simpa using ih
    | some x =>
      by_cases hx : x < (resArr.length : Int)
      · simp only [hx, if_true]
        unfold substituteAt insertedText
        rfl
      · simpa [hx] using ih

theorem newline_toList : "\n".toList = ['\n'] := rfl

theorem contains_singleton_of_mem (c : Char) :
    ∀ (s : GoString), c ∈ s → Contains s [c] = true := by
  intro s
  induction s with
  | nil => intro h; cases h
  | cons x xs ih =>
    intro h
    by_cases hx : c = x
    · subst hx; simp [Contains, List.isPrefixOf]
    · have : c ∈ xs := by
        rcases List.mem_cons.1 h with h | h
        · exact absurd h hx
        · exact h
      simp [Contains, ih this]

theorem drop_last_eq_singleton_iff (n : GoString) (c : Char) :
    n.drop (n.length - 1) = [c] ↔ n.getLast? = some c := by
  constructor
  · intro h
    have h1 := List.take_append_drop (n.length - 1) n
    rw [h] at h1
    rw [← h1, List.getLast?_concat]
  · intro h
    obtain ⟨ys, rfl⟩ := List.getLast?_eq_some_iff.1 h
    simp

/-- What the code computes in lines 143–148 is the captured value itself unless
it ends with a line terminator, in which case it is `strings.Trim(n, "\n")`. -/
theorem insertedText_eq (n : GoString) :
    (if Contains n "\n".toList then
      if n.drop (n.length - 1) = "\n".toList then Trim n "\n".toList else n
    else n) = if n.getLast? = some '\n' then Trim n "\n".toList else n := by
  rw [newline_toList]
  by_cases h : n.getLast? = some '\n'
  · have hmem : '\n' ∈ n := by
      obtain ⟨ys, rfl⟩ := List.getLast?_eq_some_iff.1 h
      simp
    rw [if_pos h, if_pos (contains_singleton_of_mem '\n' n hmem),
      if_pos ((drop_last_eq_singleton_iff n '\n').2 h)]
  · rw [if_neg h]
    have : ¬ n.drop (n.length - 1) = ['\n'] := fun e => h ((drop_last_eq_singleton_iff n '\n').1 e)
    rw [if_neg this]
    split <;> rfl

theorem takeWhile_eq_replicate (p : Char → Bool) (a : Char) (hp : ∀ c, p c = true → c = a)
    (l : GoString) : l.takeWhile p = List.replicate (l.takeWhile p).length a :=
  List.eq_replicate_iff.2 ⟨rfl, fun _ hb => hp _ (List.mem_takeWhile_imp hb)⟩

/-- The call `strings.Trim(n, "\n")` removes a run of line terminators at each end of
`n`, and what is left neither starts nor ends with a line terminator. -/
theorem Trim_newline_spec (n : GoString) :
    ∃ a b, n = List.replicate a '\n' ++ Trim n "\n".toList ++ List.replicate b '\n' ∧
      (Trim n "\n".toList).head? ≠ some '\n' ∧
      (Trim n "\n".toList).getLast? ≠ some '\n' := by
  rw [newline_toList]
  have hp : ∀ c, (['\n'].contains c) = true → c = '\n' := by
    intro c hc
    simpa using hc
  let p : Char → Bool := fun c => ['\n'].contains c
  let m := n.dropWhile p
  have hn : n = n.takeWhile p ++ m := (List.takeWhile_append_dropWhile p n).symm
  have hm : m = (m.reverse.dropWhile p).reverse ++ (m.reverse.takeWhile p).reverse := by
    rw [← List.reverse_append, List.takeWhile_append_dropWhile, List.reverse_reverse]
  have ht : Trim n ['\n'] = (m.reverse.dropWhile p).reverse := rfl
  have hlast : (Trim n ['\n']).getLast? ≠ some '\n' := by
    rw [ht, List.getLast?_reverse]
    intro e
    have := List.head?_dropWhile_not p m.reverse
    rw [e] at this
    simp [p] at this
  refine ⟨(n.takeWhile p).length, (m.reverse.takeWhile p).length, ?_, ?_, hlast⟩
  · rw [← takeWhile_eq_replicate p '\n' hp n, List.append_assoc, ht]
    have hrep : (m.reverse.takeWhile p).reverse =
        List.replicate (m.reverse.takeWhile p).length '\n' :=
      List.eq_replicate_iff.2 ⟨List.length_reverse _,
        fun b hb => hp b (List.mem_takeWhile_imp (List.mem_reverse.1 hb))⟩
    rw [← hrep]
    rw [← hm]
    exact hn
  · intro e
    have hne : Trim n ['\n'] ≠ [] := by
      intro e2; rw [e2] at e; cases e
    have hhead : m.head? = some '\n' := by
      rw [hm, ← ht]
      cases hT : Trim n ['\n'] with
      | nil => exact absurd hT hne
      | cons x xs =>
        rw [hT] at e
        simpa using e
    have := List.head?_dropWhile_not p n
    rw [show n.dropWhile p = m from rfl, hhead] at this
    simp [p] at this

theorem UpdateCommandParams_eq (common : Common) (atb : AuditBench) (index : Int)
    (val : GoString) (resArr : List GoString)
    (hidx : 0 ≤ index ∧ index < (atb.CommandParams.length : Int)) :
    UpdateCommandParams common atb index val resArr =
      match firstInRange resArr (atb.CommandParams.getD index.toNat []) with
      | none => .ok val
      | some x => substituteAt common val resArr x := by
  unfold UpdateCommandParams
  rw [if_pos hidx]
  cases hps : atb.CommandParams.getD index.toNat [] with
  | nil => rfl
  | cons p ps =>
    simp only [List.length_cons, gt_iff_lt, Nat.zero_lt_succ, if_true]
    exact rangeParams_eq common val resArr (p :: ps)

/-- C7, as stated, fails: the template `ls` contains no `#x` token, yet with the
declared source index 0 and an empty captured value `UpdateCommandParams`
returns the empty string and not the template. -/
theorem UpdateCommandParams_identity_counterexample :
    (∀ x : Int, Contains "ls".toList (paramToken x) = false) ∧
    UpdateCommandParams sampleCommon (sampleBench "" [["0"]]) 0 "ls".toList ["".toList] =
      .ok [] ∧
    UpdateCommandParams sampleCommon (sampleBench "" [["0"]]) 0 "ls".toList ["".toList] ≠
      .ok "ls".toList :=
  ⟨fun x => contains_cons_of_not_mem '#' (Itoa x) "ls".toList (by decide), rfl, by decide⟩

/-- C7, amended: on a template that contains no `#x` token `UpdateCommandParams`
returns the template itself whenever the first declared parameter that parses
and passes the range test, if there is one, is a valid index whose captured
value is valid (not empty, not the placeholder artifact, not
`common.NotValidString`). -/
theorem UpdateCommandParams_identity (common : Common) (atb : AuditBench) (index : Int)
    (val : GoString) (resArr : List GoString)
    (hidx : 0 ≤ index ∧ index < (atb.CommandParams.length : Int))
    (hno : ∀ x : Int, 0 ≤ x → Contains val (paramToken x) = false)
    (hfirst : ∀ x, firstInRange resArr (atb.CommandParams.getD index.toNat []) = some x →
      0 ≤ x ∧ resArr.getD x.toNat [] ≠ placeholderArtifact ∧ resArr.getD x.toNat [] ≠ [] ∧
        resArr.getD x.toNat [] ≠ common.NotValidString) :
    UpdateCommandParams common atb index val resArr = .ok val := by
  rw [UpdateCommandParams_eq common atb index val resArr hidx]
  cases hf : firstInRange resArr (atb.CommandParams.getD index.toNat []) with
  | none => rfl
  | some x =>
    obtain ⟨h0, h1, h2, h3⟩ := hfirst x hf
    simp only [substituteAt]
    rw [if_neg (by omega), if_neg (not_or.2 ⟨h1, not_or.2 ⟨h2, h3⟩⟩),
      ReplaceAll_of_not_contains _ _ _ (hno x h0)]

/-- Witness of the amended C7: the template `ls -l` with the declared index 0
and the captured value `a`. -/
theorem UpdateCommandParams_identity_witness :
    ((0 : Int) ≤ 0 ∧ (0 : Int) < ((sampleBench "" [["0"]]).CommandParams.length : Int)) ∧
    (∀ x : Int, 0 ≤ x → Contains "ls -l".toList (paramToken x) = false) ∧
    (∀ x, firstInRange ["a".toList]
        ((sampleBench "" [["0"]]).CommandParams.getD (0 : Int).toNat []) = some x →
      0 ≤ x ∧ ["a".toList].getD x.toNat [] ≠ placeholderArtifact ∧
        ["a".toList].getD x.toNat [] ≠ [] ∧
        ["a".toList].getD x.toNat [] ≠ sampleCommon.NotValidString) ∧
    UpdateCommandParams sampleCommon (sampleBench "" [["0"]]) 0 "ls -l".toList ["a".toList] =
      .ok "ls -l".toList :=
  have hidx : (0 : Int) ≤ 0 ∧
      (0 : Int) < ((sampleBench "" [["0"]]).CommandParams.length : Int) := by decide
  have hno : ∀ x : Int, 0 ≤ x → Contains "ls -l".toList (paramToken x) = false :=
    fun x _ => contains_cons_of_not_mem '#' (Itoa x) "ls -l".toList (by decide)
  have hfirst : ∀ x, firstInRange ["a".toList]
        ((sampleBench "" [["0"]]).CommandParams.getD (0 : Int).toNat []) = some x →
      0 ≤ x ∧ ["a".toList].getD x.toNat [] ≠ placeholderArtifact ∧
        ["a".toList].getD x.toNat [] ≠ [] ∧
        ["a".toList].getD x.toNat [] ≠ sampleCommon.NotValidString := by
    intro x h
    have hx : (0 : Int) = x := Option.some.inj h
    subst hx
    decide
  ⟨hidx, hno, hfirst,
    UpdateCommandParams_identity sampleCommon (sampleBench "" [["0"]]) 0 "ls -l".toList
      ["a".toList] hidx hno hfirst⟩

/-- C8, the code at the failing input: with the template `cat #0 #1`, the
declared indices 0 and 1 and the captured values `a` and `b`, the loop returns
at the first index, so the result is `cat a #1` and the token `#1` of the second
declared index remains. -/
theorem UpdateCommandParams_first_index_only :
    UpdateCommandParams sampleCommon (sampleBench "" [["0", "1"]]) 0 "cat #0 #1".toList
      ["a".toList, "b".toList] = .ok "cat a #1".toList ∧
    UpdateCommandParams sampleCommon (sampleBench "" [["0", "1"]]) 0 "cat #0 #1".toList
      ["a".toList, "b".toList] ≠ .ok "cat a b".toList ∧
    Contains "cat a #1".toList (paramToken 1) = true :=
  ⟨rfl, by decide, by decide⟩

/-- C9, as stated, fails: the captured value `"a\n\n"` is inserted as `a`, not
as `"a\n"`, and the captured value `"\na\n"` is inserted as `a`, not as
`"\na"`. -/
theorem UpdateCommandParams_strip_counterexample :
    UpdateCommandParams sampleCommon (sampleBench "" [["0"]]) 0 "#0".toList ["a\n\n".toList] =
      .ok "a".toList ∧
    UpdateCommandParams sampleCommon (sampleBench "" [["0"]]) 0 "#0".toList ["a\n\n".toList] ≠
      .ok "a\n".toList ∧
    UpdateCommandParams sampleCommon (sampleBench "" [["0"]]) 0 "#0".toList ["\na\n".toList] =
      .ok "a".toList ∧
    UpdateCommandParams sampleCommon (sampleBench "" [["0"]]) 0 "#0".toList ["\na\n".toList] ≠
      .ok "\na".toList :=
  ⟨rfl, by decide, rfl, by decide⟩

/-- C9, amended: when `UpdateCommandParams` substitutes the valid captured value
`n` of the first in-range declared index `x`, the text put in place of every
`#x` is `n` itself when `n` does not end with a line terminator (leading
terminators are then kept), and `strings.Trim(n, "\n")` when it does: `n` with
the whole run of line terminators at its end and the whole run at its start
removed, so that the inserted text neither starts nor ends with one. -/
theorem UpdateCommandParams_inserted_text (common : Common) (atb : AuditBench)
    (index : Int) (val : GoString) (resArr : List GoString) (x : Int)
    (hidx : 0 ≤ index ∧ index < (atb.CommandParams.length : Int))
    (hfirst : firstInRange resArr (atb.CommandParams.getD index.toNat []) = some x)
    (hx : 0 ≤ x)
    (hvalid : resArr.getD x.toNat [] ≠ placeholderArtifact ∧ resArr.getD x.toNat [] ≠ [] ∧
      resArr.getD x.toNat [] ≠ common.NotValidString) :
    UpdateCommandParams common atb index val resArr =
      .ok (ReplaceAll val (paramToken x)
        (if (resArr.getD x.toNat []).getLast? = some '\n'
          then Trim (resArr.getD x.toNat []) "\n".toList else resArr.getD x.toNat [])) ∧
    ∃ a b, resArr.getD x.toNat [] = List.replicate a '\n' ++
        Trim (resArr.getD x.toNat []) "\n".toList ++ List.replicate b '\n' ∧
      (Trim (resArr.getD x.toNat []) "\n".toList).head? ≠ some '\n' ∧
      (Trim (resArr.getD x.toNat []) "\n".toList).getLast? ≠ some '\n' := by
  refine ⟨?_, Trim_newline_spec _⟩
  rw [UpdateCommandParams_eq common atb index val resArr hidx, hfirst]
  simp only [substituteAt]
  rw [if_neg (by omega), if_neg (not_or.2 ⟨hvalid.1, not_or.2 hvalid.2⟩)]
  unfold insertedText
  rw [insertedText_eq]

/-- Witness of the amended C9: the captured value `"\na\n\n"` ends with a line
terminator and is inserted as `a`. -/
theorem UpdateCommandParams_inserted_text_witness :
    ((0 : Int) ≤ 0 ∧ (0 : Int) < ((sampleBench "" [["0"]]).CommandParams.length : Int)) ∧
    firstInRange ["\na\n\n".toList]
      ((sampleBench "" [["0"]]).CommandParams.getD (0 : Int).toNat []) = some 0 ∧
    (0 : Int) ≤ 0 ∧
    (["\na\n\n".toList].getD (0 : Int).toNat [] ≠ placeholderArtifact ∧
      ["\na\n\n".toList].getD (0 : Int).toNat [] ≠ [] ∧
      ["\na\n\n".toList].getD (0 : Int).toNat [] ≠ sampleCommon.NotValidString) ∧
    UpdateCommandParams sampleCommon (sampleBench "" [["0"]]) 0 "cat #0".toList
        ["\na\n\n".toList] = .ok "cat a".toList :=
  ⟨by decide, rfl, by decide, by decide,
    (UpdateCommandParams_inserted_text sampleCommon (sampleBench "" [["0"]]) 0
      "cat #0".toList ["\na\n\n".toList] 0 (by decide) rfl (by decide) (by decide)).1.trans
      (by decide)⟩

/-- C10: if the first declared source index that parses as a number and passes
the range test is the index `x` of a captured value that is the empty string,
`common.NotValidString` or the placeholder artifact, `UpdateCommandParams`
returns the empty string, whatever the template. -/
theorem UpdateCommandParams_invalid_value (common : Common) (atb : AuditBench)
    (index : Int) (val : GoString) (resArr : List GoString) (x : Int)
    (hidx : 0 ≤ index ∧ index < (atb.CommandParams.length : Int))
    (hfirst : firstInRange resArr (atb.CommandParams.getD index.toNat []) = some x)
    (hx : 0 ≤ x)
    (hbad : resArr.getD x.toNat [] = [] ∨ resArr.getD x.toNat [] = common.NotValidString ∨
      resArr.getD x.toNat [] = placeholderArtifact) :
    UpdateCommandParams common atb index val resArr = .ok [] := by
  rw [UpdateCommandParams_eq common atb index val resArr hidx, hfirst]
  simp only [substituteAt]
  rw [if_neg (by omega), if_pos (by tauto)]

/-- Witness of C10: the parameter `x` does not parse, `5` is out of range, and
the first in-range index 1 holds `common.NotValidString`. -/
theorem UpdateCommandParams_invalid_value_witness :
    ((0 : Int) ≤ 0 ∧
      (0 : Int) < ((sampleBench "" [["x", "5", "1", "0"]]).CommandParams.length : Int)) ∧
    firstInRange ["a".toList, sampleCommon.NotValidString]
      ((sampleBench "" [["x", "5", "1", "0"]]).CommandParams.getD (0 : Int).toNat []) =
        some 1 ∧
    (0 : Int) ≤ 1 ∧
    (["a".toList, sampleCommon.NotValidString].getD (1 : Int).toNat [] = [] ∨
      ["a".toList, sampleCommon.NotValidString].getD (1 : Int).toNat [] =
        sampleCommon.NotValidString ∨
      ["a".toList, sampleCommon.NotValidString].getD (1 : Int).toNat [] =
        placeholderArtifact) ∧
    UpdateCommandParams sampleCommon (sampleBench "" [["x", "5", "1", "0"]]) 0
      "cat #0 #1".toList ["a".toList, sampleCommon.NotValidString] = .ok [] :=
  ⟨by decide, rfl, by decide, by decide,
    UpdateCommandParams_invalid_value sampleCommon (sampleBench "" [["x", "5", "1", "0"]]) 0
      "cat #0 #1".toList ["a".toList, sampleCommon.NotValidString] 1 (by decide) rfl
      (by decide) (by decide)⟩

/-! ## Safety of the substitution, the evaluator wrapper and the report -/

theorem firstInRange_some (resArr : List GoString) :
    ∀ (params : List GoString) (x : Int), firstInRange resArr params = some x →
      ∃ p ∈ params, Atoi p = some x ∧ x < (resArr.length : Int) := by
  intro params
  induction params with
  | nil => intro x h; cases h
  | cons p ps ih =>
    intro x h
    rw [firstInRange] at h
    cases hp : Atoi p with
    | none =>
      rw [hp] at h
      obtain ⟨q, hq, h1, h2⟩ := ih x h
      exact ⟨q, List.mem_cons_of_mem _ hq, h1, h2⟩
    | some y =>
      rw [hp] at h
      by_cases hy : y < (resArr.length : Int)
      · simp only [hy, if_true] at h
        cases h
        exact ⟨p, List.mem_cons_self _ _, hp, hy⟩
      · simp only [hy, if_false] at h
        obtain ⟨q, hq, h1, h2⟩ := ih x h
        exact ⟨q, List.mem_cons_of_mem _ hq, h1, h2⟩

theorem firstInRange_none (resArr : List GoString) :
    ∀ (params : List GoString),
      (∀ p ∈ params, ∀ x, Atoi p = some x → (resArr.length : Int) ≤ x) →
      firstInRange resArr params = none := by
  intro params
  induction params with
  | nil => intro _; rfl
  | cons p ps ih =>
    intro h
    rw [firstInRange]
    have hrest := ih (fun q hq x hx => h q (List.mem_cons_of_mem _ hq) x hx)
    cases hp : Atoi p with
    | none => exact hrest
    | some y =>
      have := h p (List.mem_cons_self _ _) y hp
      simp only [show ¬ y < (resArr.length : Int) by omega, if_false]
      exact hrest

/-- When the probe has a parameter list and none of its parameters parses to a
negative number, `UpdateCommandParams` returns a string. -/
theorem UpdateCommandParams_returns (common : Common) (atb : AuditBench) (index : Int)
    (val : GoString) (resArr : List GoString)
    (hidx : 0 ≤ index ∧ index < (atb.CommandParams.length : Int))
    (hnonneg : ∀ p ∈ atb.CommandParams.getD index.toNat [], ∀ x, Atoi p = some x → 0 ≤ x) :
    ∃ cmd, UpdateCommandParams common atb index val resArr = .ok cmd := by
  rw [UpdateCommandParams_eq common atb index val resArr hidx]
  cases hf : firstInRange resArr (atb.CommandParams.getD index.toNat []) with
  | none => exact ⟨val, rfl⟩
  | some x =>
    obtain ⟨p, hp, hx, _⟩ := firstInRange_some resArr _ x hf
    have h0 := hnonneg p hp x hx
    simp only [substituteAt]
    rw [if_neg (by omega)]
    split
    · exact ⟨_, rfl⟩
    · exact ⟨_, rfl⟩

/-- C11, the code at the failing input: the parameter `-1` parses to the integer
-1, which passes the range test `x < len(resArr)`, and `resArr[-1]` panics with
an index out of range instead of a string being returned. -/
theorem UpdateCommandParams_negative_index_panics :
    Atoi "-1".toList = some (-1) ∧
    UpdateCommandParams sampleCommon (sampleBench "" [["-1"]]) 0 "cat #0".toList
      ["a".toList] = .error .indexRange ∧
    ¬ ∃ cmd, UpdateCommandParams sampleCommon (sampleBench "" [["-1"]]) 0 "cat #0".toList
      ["a".toList] = .ok cmd :=
  ⟨by decide, rfl, fun ⟨cmd, h⟩ => by
    have h1 : UpdateCommandParams sampleCommon (sampleBench "" [["-1"]]) 0 "cat #0".toList
      ["a".toList] = .error .indexRange := rfl
    rw [h1] at h
    cases h⟩

/-- C12: if the parameter list of the probe is empty, or every declared
parameter that parses as a number is at least the number of captured values,
`UpdateCommandParams` returns the template unmodified. -/
theorem UpdateCommandParams_out_of_range (common : Common) (atb : AuditBench)
    (index : Int) (val : GoString) (resArr : List GoString)
    (hidx : 0 ≤ index ∧ index < (atb.CommandParams.length : Int))
    (hout : atb.CommandParams.getD index.toNat [] = [] ∨
      ∀ p ∈ atb.CommandParams.getD index.toNat [], ∀ x, Atoi p = some x →
        (resArr.length : Int) ≤ x) :
    UpdateCommandParams common atb index val resArr = .ok val := by
  rw [UpdateCommandParams_eq common atb index val resArr hidx]
  have hnone : firstInRange resArr (atb.CommandParams.getD index.toNat []) = none := by
    rcases hout with h | h
    · rw [h]; rfl
    · exact firstInRange_none resArr _ h
  rw [hnone]

/-- Witness of C12: with two captured values the declared indices 2 and 7 are
out of range, and the template `cat #2 #7` comes back unchanged. -/
theorem UpdateCommandParams_out_of_range_witness :
    ((0 : Int) ≤ 0 ∧ (0 : Int) < ((sampleBench "" [["2", "7"]]).CommandParams.length : Int)) ∧
    ((sampleBench "" [["2", "7"]]).CommandParams.getD (0 : Int).toNat [] = [] ∨
      ∀ p ∈ (sampleBench "" [["2", "7"]]).CommandParams.getD (0 : Int).toNat [],
        ∀ x, Atoi p = some x → ((["a".toList, "b".toList].length : Nat) : Int) ≤ x) ∧
    UpdateCommandParams sampleCommon (sampleBench "" [["2", "7"]]) 0 "cat #2 #7".toList
      ["a".toList, "b".toList] = .ok "cat #2 #7".toList :=
  have hout : (sampleBench "" [["2", "7"]]).CommandParams.getD (0 : Int).toNat [] = [] ∨
      ∀ p ∈ (sampleBench "" [["2", "7"]]).CommandParams.getD (0 : Int).toNat [],
        ∀ x, Atoi p = some x → ((["a".toList, "b".toList].length : Nat) : Int) ≤ x := by
    right
    intro p hp x hx
    have hp2 : p = "2".toList ∨ p = "7".toList := by
      simpa [sampleBench] using hp
    rcases hp2 with rfl | rfl
    · have h2 : (2 : Int) = x := Option.some.inj hx
      subst h2; decide
    · have h7 : (7 : Int) = x := Option.some.inj hx
      subst h7; decide
  ⟨by decide, hout,
    UpdateCommandParams_out_of_range sampleCommon (sampleBench "" [["2", "7"]]) 0
      "cat #2 #7".toList ["a".toList, "b".toList] (by decide) hout⟩

/-- C13, as stated, fails: when the evaluation succeeds with a string (or a
number) `evalCommandExpr` returns the count 0 and no error. -/
theorem evalCommandExpr_non_boolean_counterexample :
    evalCommandExpr { sampleEnv with Evaluate := fun s => some (.str s) }
      (sampleBench "" []) "'a'".toList = (0, none) ∧
    evalCommandExpr { sampleEnv with Evaluate := fun _ => some (.number 7) }
      (sampleBench "" []) "3 + 4".toList = (0, none) :=
  ⟨rfl, rfl⟩

/-- C13, amended: `evalCommandExpr` returns an error exactly when the text is
not a valid expression or the evaluation fails, and then the count is 0.  When
the evaluation succeeds there is no error, whatever the value; the count is 1
exactly when the value is the boolean `true` and 0 otherwise, that is for the
boolean `false` and for every value that is not a boolean. -/
theorem evalCommandExpr_outcome (env : Env) (atb : AuditBench) (expr : GoString) :
    ((evalCommandExpr env atb expr).2 ≠ none ↔
      (env.NewEvaluableExpression expr = none ∨
        ∃ e, env.NewEvaluableExpression expr = some e ∧ env.Evaluate e = none)) ∧
    ((evalCommandExpr env atb expr).2 ≠ none → (evalCommandExpr env atb expr).1 = 0) ∧
    ((evalCommandExpr env atb expr).1 = 1 ↔
      ∃ e, env.NewEvaluableExpression expr = some e ∧ env.Evaluate e = some (.bool true)) ∧
    ((evalCommandExpr env atb expr).1 = 0 ∨ (evalCommandExpr env atb expr).1 = 1) ∧
    (∀ e v, env.NewEvaluableExpression expr = some e → env.Evaluate e = some v →
      evalCommandExpr env atb expr = (if v = .bool true then 1 else 0, none)) := by
  have key : ∀ e v, env.NewEvaluableExpression expr = some e → env.Evaluate e = some v →
      evalCommandExpr env atb expr = (if v = .bool true then 1 else 0, none) := by
    intro e v h1 h2
    cases v with
    | bool b => cases b <;> simp [evalCommandExpr, h1, h2]
    | number x => simp [evalCommandExpr, h1, h2]
    | str s => simp [evalCommandExpr, h1, h2]
    | other => simp [evalCommandExpr, h1, h2]
  refine ⟨?_, ?_, ?_, ?_, key⟩
  all_goals
    cases h1 : env.NewEvaluableExpression expr with
    | none => simp [evalCommandExpr, h1]
    | some e =>
      cases h2 : env.Evaluate e with
      | none => simp [evalCommandExpr, h1, h2]
      | some v =>
        rw [key e v h1 h2]
        by_cases hv : v = .bool true <;> simp [hv, h2]

/-- C14: `AddFailedMessages` appends the test at the end of `FailedTests`,
keeping what was there, exactly when `NumOfSuccess != NumOfExec`, and leaves
`FailedTests` as it was otherwise; nothing else of the audit object changes,
and a test whose two counters are 0 is not recorded. -/
theorem AddFailedMessages_spec (bk : K8sAudit) (atb : AuditBench) :
    (bk.AddFailedMessages atb).FailedTests =
      (if atb.TestResult.NumOfSuccess ≠ atb.TestResult.NumOfExec
        then bk.FailedTests ++ [atb] else bk.FailedTests) ∧
    (atb ∈ (bk.AddFailedMessages atb).FailedTests ↔
      (atb.TestResult.NumOfSuccess ≠ atb.TestResult.NumOfExec ∨ atb ∈ bk.FailedTests)) ∧
    (bk.AddFailedMessages atb).args = bk.args ∧
    (bk.AddFailedMessages
      { atb with TestResult := { NumOfExec := 0, NumOfSuccess := 0 } }).FailedTests =
        bk.FailedTests := by
  unfold K8sAudit.AddFailedMessages
  refine ⟨?_, ?_, ?_, ?_⟩
  · split <;> rfl
  · split
    · rename_i h; simp [h]
    · rename_i h; simp [h]
  · split <;> rfl
  · simp

/-! ## The probe loop -/

theorem ProbeInvariant_step (common : Common) (utils : Utils) (ex : Executor)
    (atb : AuditBench) (k : Nat) (run : ProbeRun ex.State) (cmd v : GoString)
    (shell : ex.State) (extra : List (Nat × GoString × CommandResult))
    (hinv : ProbeInvariant common utils ex atb k run)
    (hcmd : UpdateCommandParams common atb (k : Int) (atb.AuditCommand.getD k [])
      run.resArr = .ok cmd)
    (hcase : (cmd = [] ∧ v = addDummyCommandResponse common utils atb (k : Int) ∧ extra = []) ∨
      (cmd ≠ [] ∧ ∃ s, extra = [(k, cmd, (ex.Exec s cmd).1)] ∧
        v = if (ex.Exec s cmd).1.Stderr ≠ [] then [] else (ex.Exec s cmd).1.Stdout)) :
    ProbeInvariant common utils ex atb (k + 1)
      { resArr := run.resArr ++ [v], shell := shell, executed := run.executed ++ extra } := by
  obtain ⟨hlen, hcap, hlt, hpw⟩ := hinv
  have hextra : ∀ e ∈ extra, e.1 = k := by
    intro e he
    rcases hcase with ⟨_, _, h⟩ | ⟨_, s, h, _⟩
    · rw [h] at he; cases he
    · rw [h] at he
      rw [List.mem_singleton.1 he]
  refine ⟨by simp [hlen], ?_, ?_, ?_⟩
  · intro i hi
    by_cases hik : i < k
    · obtain ⟨c, hc, hrest⟩ := hcap i hik
      refine ⟨c, ?_, ?_⟩
      · show UpdateCommandParams common atb (i : Int) (atb.AuditCommand.getD i [])
          ((run.resArr ++ [v]).take i) = .ok c
        rw [List.take_append_of_le_length (by omega)]
        exact hc
      · show (c = [] ∧ (run.resArr ++ [v]).getD i [] = _ ∧
            ∀ e ∈ run.executed ++ extra, e.1 ≠ i) ∨
          (c ≠ [] ∧ ∃ s, (i, c, (ex.Exec s c).1) ∈ run.executed ++ extra ∧
            (∀ e ∈ run.executed ++ extra, e.1 = i → e = (i, c, (ex.Exec s c).1)) ∧
            (run.resArr ++ [v]).getD i [] = _)
        rw [List.getD_append _ _ _ _ (by omega)]
        rcases hrest with ⟨h1, h2, h3⟩ | ⟨h1, s, h2, h3, h4⟩
        · left
          refine ⟨h1, h2, ?_⟩
          intro e he
          rcases List.mem_append.1 he with he | he
          · exact h3 e he
          · rw [hextra e he]; omega
        · right
          refine ⟨h1, s, List.mem_append_left _ h2, ?_, h4⟩
          intro e he hei
          rcases List.mem_append.1 he with he | he
          · exact h3 e he hei
          · have := hextra e he
            omega
    · have hik2 : i = k := by omega
      subst hik2
      refine ⟨cmd, ?_, ?_⟩
      · show UpdateCommandParams common atb (i : Int) (atb.AuditCommand.getD i [])
          ((run.resArr ++ [v]).take i) = .ok cmd
        rw [List.take_left' hlen]
        exact hcmd
      · show (cmd = [] ∧ (run.resArr ++ [v]).getD i [] = _ ∧
            ∀ e ∈ run.executed ++ extra, e.1 ≠ i) ∨
          (cmd ≠ [] ∧ ∃ s, (i, cmd, (ex.Exec s cmd).1) ∈ run.executed ++ extra ∧
            (∀ e ∈ run.executed ++ extra, e.1 = i → e = (i, cmd, (ex.Exec s cmd).1)) ∧
            (run.resArr ++ [v]).getD i [] = _)
        have hv : (run.resArr ++ [v]).getD i [] = v := by
          rw [List.getD_append_right _ _ _ _ (by omega), hlen]
          simp
        rw [hv]
        rcases hcase with ⟨h1, h2, h3⟩ | ⟨h1, s, h2, h3⟩
        · left
          refine ⟨h1, h2, ?_⟩
          intro e he
          rw [h3, List.append_nil] at he
          have := hlt e he
          omega
        · right
          refine ⟨h1, s, ?_, ?_, h3⟩
          · rw [h2]; simp
          · intro e he _
            rcases List.mem_append.1 he with he | he
            · have := hlt e he
              omega
            · rw [h2] at he
              exact List.mem_singleton.1 he
  · intro e he
    rcases List.mem_append.1 he with he | he
    · have := hlt e he
      show e.1 < k + 1
      omega
    · show e.1 < k + 1
      rw [hextra e he]; omega
  · show ((run.executed ++ extra).map (fun e => e.1)).Pairwise (fun a b => a < b)
    rw [List.map_append, List.pairwise_append]
    refine ⟨hpw, ?_, ?_⟩
    · rcases hcase with ⟨_, _, h⟩ | ⟨_, s, h, _⟩
      · rw [h]; simp
      · rw [h]; simp
    · intro a ha b hb
      obtain ⟨e, he, rfl⟩ := List.mem_map.1 ha
      obtain ⟨f, hf, rfl⟩ := List.mem_map.1 hb
      rw [hextra f hf]
      exact hlt e he

theorem rangeAuditCommand_invariant (common : Common) (utils : Utils) (ex : Executor)
    (atb : AuditBench)
    (hret : ∀ (i : Nat) (res : List GoString), i < atb.AuditCommand.length →
      res.length = i →
      ∃ cmd, UpdateCommandParams common atb (i : Int) (atb.AuditCommand.getD i []) res =
        .ok cmd) :
    ∀ (rest : List GoString) (k : Nat) (run : ProbeRun ex.State),
      atb.AuditCommand.drop k = rest → ProbeInvariant common utils ex atb k run →
      ∃ done, rangeAuditCommand common utils ex atb k rest run = .ok done ∧
        ProbeInvariant common utils ex atb (k + rest.length) done := by
  intro rest
  induction rest with
  | nil =>
    intro k run _ hinv
    exact ⟨run, rfl, hinv⟩
  | cons val rest ih =>
    intro k run hdrop hinv
    have hk : k < atb.AuditCommand.length := by
      by_contra hc
      rw [List.drop_eq_nil_of_le (by omega)] at hdrop
      cases hdrop
    rw [List.drop_eq_getElem_cons hk] at hdrop
    have hval : atb.AuditCommand.getD k [] = val := by
      rw [List.getD_eq_getElem _ _ hk]
      exact (List.cons.inj hdrop).1
    have hrest : atb.AuditCommand.drop (k + 1) = rest := (List.cons.inj hdrop).2
    obtain ⟨cmd, hcmd⟩ := hret k run.resArr hk hinv.1
    have hcmd2 : UpdateCommandParams common atb (k : Int) val run.resArr = .ok cmd := by
      rw [← hval]; exact hcmd
    have hgoal : k + (val :: rest).length = (k + 1) + rest.length := by
      simp only [List.length_cons]; omega
    rw [hgoal, rangeAuditCommand]
    simp only [hcmd2]
    by_cases hempty : cmd = []
    · rw [if_pos hempty]
      exact ih (k + 1) _ hrest
        (ProbeInvariant_step common utils ex atb k run cmd _ run.shell [] hinv hcmd
          (Or.inl ⟨hempty, rfl, rfl⟩) |> fun h => by simpa using h)
    · rw [if_neg hempty]
      by_cases herr : (ex.Exec run.shell cmd).1.Stderr ≠ []
      · rw [if_pos herr]
        exact ih (k + 1) _ hrest
          (ProbeInvariant_step common utils ex atb k run cmd [] (ex.Exec run.shell cmd).2
            [(k, cmd, (ex.Exec run.shell cmd).1)] hinv hcmd
            (Or.inr ⟨hempty, run.shell, rfl, by rw [if_pos herr]⟩))
      · rw [if_neg herr]
        exact ih (k + 1) _ hrest
          (ProbeInvariant_step common utils ex atb k run cmd (ex.Exec run.shell cmd).1.Stdout
            (ex.Exec run.shell cmd).2
            [(k, cmd, (ex.Exec run.shell cmd).1)] hinv hcmd
            (Or.inr ⟨hempty, run.shell, rfl, by rw [if_neg herr]⟩))

theorem firstInRange_length (res1 res2 : List GoString) (h : res1.length = res2.length) :
    ∀ (params : List GoString), firstInRange res1 params = firstInRange res2 params := by
  intro params
  induction params with
  | nil => rfl
  | cons p ps ih =>
    rw [firstInRange, firstInRange, h, ih]

/-- At the probe `i` the list of captured values has `i` entries, so whether
`UpdateCommandParams` returns there depends on the test alone: it does when the
probe has a parameter list and the first of its parameters that parses to a
number below `i`, if there is one, is not negative. -/
theorem UpdateCommandParams_returns_at (common : Common) (atb : AuditBench) (i : Nat)
    (val : GoString) (res : List GoString) (hres : res.length = i)
    (hsafe : i < atb.CommandParams.length ∧
      0 ≤ (firstInRange (List.replicate i []) (atb.CommandParams.getD i [])).getD 0) :
    ∃ cmd, UpdateCommandParams common atb (i : Int) val res = .ok cmd := by
  rw [UpdateCommandParams_eq common atb (i : Int) val res ⟨by omega, by omega⟩,
    Int.toNat_ofNat,
    firstInRange_length res (List.replicate i []) (by rw [hres, List.length_replicate])]
  cases hf : firstInRange (List.replicate i []) (atb.CommandParams.getD i []) with
  | none => exact ⟨val, rfl⟩
  | some x =>
    have h0 : 0 ≤ x := by
      have := hsafe.2
      rw [hf] at this
      exact this
    simp only [substituteAt]
    rw [if_neg (by omega)]
    split
    · exact ⟨_, rfl⟩
    · exact ⟨_, rfl⟩

/-- The probe loop on the tests on which `UpdateCommandParams` cannot panic
(every probe has a parameter list, and the first of its parameters that parses
to a number below the index of the probe, if there is one, is not negative):
the loop returns, whatever the executor does, and has captured exactly one value
per probe command, in declared order, so that the list handed to
`evalExpression` is as long as the list of probe commands.  The value of the
probe `i` is the dummy response when `UpdateCommandParams` (on the values
captured before it) returned the empty string, and the executor is then not
called for `i`; otherwise the executor is called exactly once for `i`, with
the command returned, and the value is the empty string when it reported
something on the standard error and its standard output otherwise.  The
executor is called in increasing order of the probes. -/
theorem rangeAuditCommand_captures (common : Common) (utils : Utils) (ex : Executor)
    (atb : AuditBench) (shell : ex.State)
    (hsafe : ∀ i, i < atb.AuditCommand.length → i < atb.CommandParams.length ∧
      0 ≤ (firstInRange (List.replicate i []) (atb.CommandParams.getD i [])).getD 0) :
    ∃ run, rangeAuditCommand common utils ex atb 0 atb.AuditCommand
        { resArr := [], shell := shell, executed := [] } = .ok run ∧
      run.resArr.length = atb.AuditCommand.length ∧
      (∀ i, i < atb.AuditCommand.length →
        ∃ cmd, UpdateCommandParams common atb (i : Int) (atb.AuditCommand.getD i [])
            (run.resArr.take i) = .ok cmd ∧
          ((cmd = [] ∧
              run.resArr.getD i [] = addDummyCommandResponse common utils atb (i : Int) ∧
              ∀ e ∈ run.executed, e.1 ≠ i) ∨
            (cmd ≠ [] ∧ ∃ s, (i, cmd, (ex.Exec s cmd).1) ∈ run.executed ∧
              (∀ e ∈ run.executed, e.1 = i → e = (i, cmd, (ex.Exec s cmd).1)) ∧
              run.resArr.getD i [] =
                if (ex.Exec s cmd).1.Stderr ≠ [] then [] else (ex.Exec s cmd).1.Stdout))) ∧
      (run.executed.map (fun e => e.1)).Pairwise (fun a b => a < b) ∧
      (∀ (env : Env) (bk : K8sAudit), ∃ bk1 w,
        runTest common utils ex env bk shell atb = .ok (bk1, run.shell, w) ∧
        evalExpression env (NewValidExprData run.resArr) []
          { atb := atb, evaluated := [] } = .ok w) := by
  have hinit : ProbeInvariant common utils ex atb 0
      ({ resArr := [], shell := shell, executed := [] } : ProbeRun ex.State) :=
    ⟨rfl, fun i hi => absurd hi (Nat.not_lt_zero i),
      fun e he => absurd he (List.not_mem_nil e), List.Pairwise.nil⟩
  obtain ⟨run, hrun, hlen, hcap, _, hpw⟩ :=
    rangeAuditCommand_invariant common utils ex atb
      (fun i res hi hres =>
        UpdateCommandParams_returns_at common atb i _ res hres (hsafe i hi))
      atb.AuditCommand 0 _ rfl hinit
  rw [Nat.zero_add] at hlen hcap
  refine ⟨run, hrun, hlen, hcap, hpw, ?_⟩
  intro env bk
  have hev := evalExpression_total env run.resArr { atb := atb, evaluated := [] }
  unfold runTest
  simp only [hrun, hev]
  split
  · exact ⟨_, _, rfl, rfl⟩
  · exact ⟨_, _, rfl, rfl⟩

/-- An example of the probe loop: of four probes the second fails, the third is
skipped and gets the dummy response, and the first and the fourth are captured
from the standard output; four values are captured and the executor runs three
times. -/
theorem rangeAuditCommand_captures_example :
    (∀ i, i < (sampleTest ["echo a", "bad #0", "echo #1", "echo b"]
        [[], ["0"], ["1"], []] "$2 == 5").AuditCommand.length →
      i < (sampleTest ["echo a", "bad #0", "echo #1", "echo b"]
        [[], ["0"], ["1"], []] "$2 == 5").CommandParams.length ∧
      0 ≤ (firstInRange (List.replicate i [])
        ((sampleTest ["echo a", "bad #0", "echo #1", "echo b"]
          [[], ["0"], ["1"], []] "$2 == 5").CommandParams.getD i [])).getD 0) ∧
    (∃ run, rangeAuditCommand sampleCommon sampleUtils sampleExecutor
        (sampleTest ["echo a", "bad #0", "echo #1", "echo b"] [[], ["0"], ["1"], []] "$2 == 5")
        0 (sampleTest ["echo a", "bad #0", "echo #1", "echo b"]
          [[], ["0"], ["1"], []] "$2 == 5").AuditCommand
        { resArr := [], shell := (), executed := [] } = .ok run ∧
      run.resArr.length = (sampleTest ["echo a", "bad #0", "echo #1", "echo b"]
          [[], ["0"], ["1"], []] "$2 == 5").AuditCommand.length ∧
      run.resArr = ["a\n".toList, [], sampleCommon.NotValidNumber, "b\n".toList] ∧
      run.executed.map (fun e => (e.1, e.2.1)) =
        [(0, "echo a".toList), (1, "bad a".toList), (3, "echo b".toList)]) := by
  have hsafe : ∀ i, i < (sampleTest ["echo a", "bad #0", "echo #1", "echo b"]
        [[], ["0"], ["1"], []] "$2 == 5").AuditCommand.length →
      i < (sampleTest ["echo a", "bad #0", "echo #1", "echo b"]
        [[], ["0"], ["1"], []] "$2 == 5").CommandParams.length ∧
      0 ≤ (firstInRange (List.replicate i [])
        ((sampleTest ["echo a", "bad #0", "echo #1", "echo b"]
          [[], ["0"], ["1"], []] "$2 == 5").CommandParams.getD i [])).getD 0 := by
    decide
  obtain ⟨run, hrun, hlen, _⟩ := rangeAuditCommand_captures sampleCommon sampleUtils
    sampleExecutor
    (sampleTest ["echo a", "bad #0", "echo #1", "echo b"] [[], ["0"], ["1"], []] "$2 == 5")
    () hsafe
  have h2 : rangeAuditCommand sampleCommon sampleUtils sampleExecutor
      (sampleTest ["echo a", "bad #0", "echo #1", "echo b"] [[], ["0"], ["1"], []] "$2 == 5")
      0 (sampleTest ["echo a", "bad #0", "echo #1", "echo b"]
        [[], ["0"], ["1"], []] "$2 == 5").AuditCommand
      { resArr := [], shell := (), executed := [] } =
      .ok { resArr := ["a\n".toList, [], sampleCommon.NotValidNumber, "b\n".toList],
            shell := (),
            executed := [(0, "echo a".toList, ⟨"a\n".toList, []⟩),
              (1, "bad a".toList, ⟨[], "command not found".toList⟩),
              (3, "echo b".toList, ⟨"b\n".toList, []⟩)] } := rfl
  refine ⟨hsafe, run, hrun, hlen, ?_, ?_⟩
  · rw [h2] at hrun
    cases hrun
    rfl
  · rw [h2] at hrun
    cases hrun
    rfl

/-- C15, the code at the failing input: of the three probes `echo a`, `echo #0`
and `echo c` the second declares the parameter `-1`.  The first probe is
captured, then `UpdateCommandParams` panics on `resArr[-1]` at the second probe
(the defect of C11), the loop is abandoned with it, no value is captured for
the second and the third probe, and `evalExpression` is never reached. -/
theorem rangeAuditCommand_negative_parameter_stops :
    UpdateCommandParams sampleCommon
      (sampleTest ["echo a", "echo #0", "echo c"] [[], ["-1"], []] "$0 == a") 1
      "echo #0".toList ["a\n".toList] = .error .indexRange ∧
    rangeAuditCommand sampleCommon sampleUtils sampleExecutor
      (sampleTest ["echo a", "echo #0", "echo c"] [[], ["-1"], []] "$0 == a") 0
      (sampleTest ["echo a", "echo #0", "echo c"] [[], ["-1"], []] "$0 == a").AuditCommand
      { resArr := [], shell := (), executed := [] } = .error .indexRange ∧
    (¬ ∃ run, rangeAuditCommand sampleCommon sampleUtils sampleExecutor
      (sampleTest ["echo a", "echo #0", "echo c"] [[], ["-1"], []] "$0 == a") 0
      (sampleTest ["echo a", "echo #0", "echo c"] [[], ["-1"], []] "$0 == a").AuditCommand
      { resArr := [], shell := (), executed := [] } = .ok run) ∧
    runTest sampleCommon sampleUtils sampleExecutor sampleEnv
      { FailedTests := [], args := [] } ()
      (sampleTest ["echo a", "echo #0", "echo c"] [[], ["-1"], []] "$0 == a") =
        .error .indexRange :=
  ⟨rfl, rfl,
    (fun ⟨run, h⟩ => by
      have h1 : rangeAuditCommand sampleCommon sampleUtils sampleExecutor
        (sampleTest ["echo a", "echo #0", "echo c"] [[], ["-1"], []] "$0 == a") 0
        (sampleTest ["echo a", "echo #0", "echo c"] [[], ["-1"], []] "$0 == a").AuditCommand
        { resArr := [], shell := (), executed := [] } = .error .indexRange := rfl
      rw [h1] at h
      cases h),
    rfl⟩

/-! ## The dummy response and the sentinels -/

theorem rangeSpExpr_hit (common : Common) (index : Int) :
    ∀ (spExpr : List SepExpr),
      (∃ e ∈ spExpr, e.ExprType = common.SingleValue ∧
        Contains e.Expr ('$' :: Itoa index) = true ∧
        Contains e.Expr ("'$".toList ++ Itoa index ++ "'".toList) = false) →
      rangeSpExpr common index spExpr = common.NotValidNumber := by
  intro spExpr
  induction spExpr with
  | nil => rintro ⟨e, he, _⟩; cases he
  | cons a rest ih =>
    rintro ⟨e, he, h1, h2, h3⟩
    rw [rangeSpExpr]
    by_cases ha : a.ExprType = common.SingleValue ∧
        Contains a.Expr ('$' :: Itoa index) = true ∧
        Contains a.Expr ("'$".toList ++ Itoa index ++ "'".toList) = false
    · rw [if_pos ha.1, if_pos (by rw [ha.2.2]; simp), if_pos ha.2.1]
    · have hrest : rangeSpExpr common index rest = common.NotValidNumber := by
        apply ih
        rcases List.mem_cons.1 he with rfl | he
        · exact absurd ⟨h1, h2, h3⟩ ha
        · exact ⟨e, he, h1, h2, h3⟩
      split
      · split
        · split
          · rfl
          · exact hrest
        · exact hrest
      · exact hrest

theorem rangeSpExpr_miss (common : Common) (index : Int) :
    ∀ (spExpr : List SepExpr),
      (¬ ∃ e ∈ spExpr, e.ExprType = common.SingleValue ∧
        Contains e.Expr ('$' :: Itoa index) = true ∧
        Contains e.Expr ("'$".toList ++ Itoa index ++ "'".toList) = false) →
      rangeSpExpr common index spExpr = common.NotValidString := by
  intro spExpr
  induction spExpr with
  | nil => intro _; rfl
  | cons a rest ih =>
    intro h
    have hrest : rangeSpExpr common index rest = common.NotValidString :=
      ih (fun ⟨e, he, hc⟩ => h ⟨e, List.mem_cons_of_mem _ he, hc⟩)
    rw [rangeSpExpr]
    split
    · rename_i h1
      split
      · rename_i h2
        split
        · rename_i h3
          exact absurd ⟨a, List.mem_cons_self _ _, h1, h3, by simpa using h2⟩ h
        · exact hrest
      · exact hrest
    · exact hrest

/-- C16, as stated, fails: in the assertion `$10 > 5` the placeholder of the
probe 1 does not appear, only that of the probe 10 does, and yet the dummy
response of the probe 1 is `common.NotValidNumber`; the same happens with the
quoted placeholder `'$10'`. -/
theorem addDummyCommandResponse_counterexample :
    addDummyCommandResponse sampleCommon sampleUtils (sampleBench "$10 > 5" []) 1 =
      sampleCommon.NotValidNumber ∧
    addDummyCommandResponse sampleCommon sampleUtils (sampleBench "'$10' == 'a'" []) 1 =
      sampleCommon.NotValidNumber ∧
    sampleCommon.NotValidNumber ≠ sampleCommon.NotValidString :=
  ⟨rfl, rfl, by decide⟩

/-- C16, amended: `addDummyCommandResponse` returns `common.NotValidNumber` when
some single-value component of the assertion contains the text `$i` and does
not contain the text `'$i'`, and `common.NotValidString` otherwise.  Both are
plain substring tests: the text `$i` is also found inside the placeholder of a
probe whose number starts with the digits of `i`, and a component holding a
quoted `'$i'` is passed over even when it holds an unquoted `$i` too. -/
theorem addDummyCommandResponse_spec (common : Common) (utils : Utils) (atb : AuditBench)
    (index : Int) :
    ((∃ e ∈ utils.SeparateExpr atb.EvalExpr, e.ExprType = common.SingleValue ∧
        Contains e.Expr ('$' :: Itoa index) = true ∧
        Contains e.Expr ("'$".toList ++ Itoa index ++ "'".toList) = false) →
      addDummyCommandResponse common utils atb index = common.NotValidNumber) ∧
    ((¬ ∃ e ∈ utils.SeparateExpr atb.EvalExpr, e.ExprType = common.SingleValue ∧
        Contains e.Expr ('$' :: Itoa index) = true ∧
        Contains e.Expr ("'$".toList ++ Itoa index ++ "'".toList) = false) →
      addDummyCommandResponse common utils atb index = common.NotValidString) ∧
    (addDummyCommandResponse common utils atb index = common.NotValidNumber ∨
      addDummyCommandResponse common utils atb index = common.NotValidString) := by
  refine ⟨rangeSpExpr_hit common index _, rangeSpExpr_miss common index _, ?_⟩
  by_cases h : ∃ e ∈ utils.SeparateExpr atb.EvalExpr, e.ExprType = common.SingleValue ∧
        Contains e.Expr ('$' :: Itoa index) = true ∧
        Contains e.Expr ("'$".toList ++ Itoa index ++ "'".toList) = false
  · exact Or.inl (rangeSpExpr_hit common index _ h)
  · exact Or.inr (rangeSpExpr_miss common index _ h)

/-- Examples of the amended C16: an unquoted placeholder gives the number
sentinel, a quoted or absent one the string sentinel, and a quoted occurrence
hides an unquoted one of the same component. -/
theorem addDummyCommandResponse_examples :
    addDummyCommandResponse sampleCommon sampleUtils (sampleBench "$1 > 5" []) 1 =
      sampleCommon.NotValidNumber ∧
    addDummyCommandResponse sampleCommon sampleUtils (sampleBench "'$1' == 'a'" []) 1 =
      sampleCommon.NotValidString ∧
    addDummyCommandResponse sampleCommon sampleUtils (sampleBench "$0 > 5" []) 1 =
      sampleCommon.NotValidString ∧
    addDummyCommandResponse sampleCommon sampleUtils
      (sampleBench "'$1' == 'a' && $1 > 3" []) 1 = sampleCommon.NotValidString :=
  ⟨(addDummyCommandResponse_spec sampleCommon sampleUtils (sampleBench "$1 > 5" []) 1).1
      ⟨_, List.mem_singleton.2 rfl, rfl, by decide, by decide⟩,
    rfl, rfl, rfl⟩

/-- C17, the code at the failing input: `common.NotValidNumber` is one of the two
dummy responses the engine inserts for a skipped probe, but line 141 tests for
`common.NotValidString` only, so a probe that depends on it is not skipped and
the sentinel text is written into its command, here `echo NotValidNumber`, which
the probe loop then hands to the executor. -/
theorem UpdateCommandParams_number_sentinel_inserted :
    addDummyCommandResponse sampleCommon sampleUtils (sampleBench "$0 > 5" []) 0 =
      sampleCommon.NotValidNumber ∧
    UpdateCommandParams sampleCommon (sampleBench "" [["0"]]) 0 "echo #0".toList
      [sampleCommon.NotValidNumber] = .ok "echo NotValidNumber".toList ∧
    UpdateCommandParams sampleCommon (sampleBench "" [["0"]]) 0 "echo #0".toList
      [sampleCommon.NotValidNumber] ≠ .ok [] ∧
    UpdateCommandParams sampleCommon (sampleBench "" [["0"]]) 0 "echo #0".toList
      [sampleCommon.NotValidString] = .ok [] ∧
    (∃ run, rangeAuditCommand sampleCommon sampleUtils sampleExecutor
        (sampleTest ["bad", "echo #0", "echo #1"] [[], ["0"], ["1"]] "$1 > 5") 0
        (sampleTest ["bad", "echo #0", "echo #1"] [[], ["0"], ["1"]] "$1 > 5").AuditCommand
        { resArr := [], shell := (), executed := [] } = .ok run ∧
      run.resArr = [[], sampleCommon.NotValidNumber, "NotValidNumber\n".toList] ∧
      run.executed.map (fun e => (e.1, e.2.1)) =
        [(0, "bad".toList), (2, "echo NotValidNumber".toList)]) :=
  ⟨rfl, rfl, by decide, rfl, _, rfl, rfl, rfl⟩

/-! ## Tokens of other indices -/

theorem digitChar_isDigit (k : Nat) (hk : k < 10) : (Nat.digitChar k).isDigit = true := by
  interval_cases k <;> decide

theorem toDigitsCore_isDigit :
    ∀ (fuel n : Nat) (ds : List Char), (∀ c ∈ ds, c.isDigit = true) →
      ∀ c ∈ Nat.toDigitsCore 10 fuel n ds, c.isDigit = true := by
  intro fuel
  induction fuel with
  | zero => intro n ds h c hc; exact h c hc
  | succ f ih =>
    intro n ds h c hc
    rw [Nat.toDigitsCore] at hc
    have hd : ∀ c ∈ Nat.digitChar (n % 10) :: ds, c.isDigit = true := by
      intro c hc
      rcases List.mem_cons.1 hc with rfl | hc
      · exact digitChar_isDigit _ (Nat.mod_lt _ (by decide))
      · exact h c hc
    split at hc
    · exact hd c hc
    · exact ih _ _ hd c hc

theorem Itoa_isDigit (x : Int) (hx : 0 ≤ x) : ∀ c ∈ Itoa x, c.isDigit = true := by
  intro c hc
  unfold Itoa at hc
  rw [if_neg (by omega)] at hc
  exact toDigitsCore_isDigit _ _ [] (fun c hc => absurd hc (List.not_mem_nil c)) c hc

theorem hash_not_mem_Itoa (x : Int) : '#' ∉ Itoa x := by
  intro h
  unfold Itoa at h
  have hd : ∀ n, '#' ∉ Nat.toDigits 10 n := by
    intro n hn
    have := toDigitsCore_isDigit _ _ [] (fun c hc => absurd hc (List.not_mem_nil c)) '#' hn
    revert this
    decide
  split at h
  · rcases List.mem_cons.1 h with h | h
    · revert h; decide
    · exact hd _ h
  · exact hd _ h

theorem isPrefixOf_append_cons_of_not_mem (b : Char) :
    ∀ (l a r : GoString), b ∉ l → l.isPrefixOf (a ++ b :: r) = true →
      l.isPrefixOf a = true := by
  intro l
  induction l with
  | nil => intro a r _ _; simp [List.isPrefixOf]
  | cons x l ih =>
    intro a r hb h
    have hx : b ≠ x := fun e => hb (by simp [e])
    have hl : b ∉ l := fun e => hb (by simp [e])
    cases a with
    | nil =>
      simp only [List.nil_append, List.isPrefixOf, Bool.and_eq_true, beq_iff_eq] at h
      exact absurd h.1.symm hx
    | cons y a =>
      simp only [List.cons_append, List.isPrefixOf, Bool.and_eq_true, beq_iff_eq] at h ⊢
      exact ⟨h.1, ih a r hl h.2⟩

theorem isPrefixOf_append_right (l a p : GoString) (h : l.isPrefixOf a = true) :
    l.isPrefixOf (a ++ p) = true := by
  rw [List.isPrefixOf_iff_prefix] at h ⊢
  exact h.trans (List.prefix_append a p)

theorem isPrefixOf_length (l a : GoString) (h : l.isPrefixOf a = true) :
    l.length ≤ a.length := by
  rw [List.isPrefixOf_iff_prefix] at h
  exact h.length_le

theorem isPrefixOf_append_cases :
    ∀ (l a p : GoString), l.isPrefixOf (a ++ p) = true →
      l.isPrefixOf a = true ∨ ∃ c, p.head? = some c ∧ c ∈ l := by
  intro l
  induction l with
  | nil => intro a p _; left; simp [List.isPrefixOf]
  | cons x l ih =>
    intro a p h
    cases a with
    | nil =>
      right
      cases p with
      | nil => simp [List.isPrefixOf] at h
      | cons c p =>
        simp only [List.nil_append, List.isPrefixOf, Bool.and_eq_true, beq_iff_eq] at h
        exact ⟨c, rfl, by simp [h.1]⟩
    | cons y a =>
      simp only [List.cons_append, List.isPrefixOf, Bool.and_eq_true, beq_iff_eq] at h
      rcases ih a p h.2 with h2 | ⟨c, hc1, hc2⟩
      · left
        simp only [List.isPrefixOf, Bool.and_eq_true, beq_iff_eq]
        exact ⟨h.1, h2⟩
      · exact Or.inr ⟨c, hc1, List.mem_cons_of_mem _ hc2⟩

theorem replaceScan_skip (old new : GoString) (k : Nat) (x : Char) (xs : GoString) :
    replaceScan old new (k + 1) (x :: xs) = replaceScan old new k xs := rfl

theorem replaceScan_zero (old new : GoString) (x : Char) (xs : GoString) :
    replaceScan old new 0 (x :: xs) =
      if old.isPrefixOf (x :: xs) then new ++ replaceScan old new (old.length - 1) xs
      else x :: replaceScan old new 0 xs := rfl

/-- Scanning for a token `# ds` that holds no further `#`: what comes before a
`#` of the text is rewritten on its own. -/
theorem replaceScan_append_hash (ds new : GoString) (hds : '#' ∉ ds) (tail : GoString) :
    ∀ (pre : GoString) (skip : Nat), skip ≤ pre.length →
      replaceScan ('#' :: ds) new skip (pre ++ '#' :: tail) =
        replaceScan ('#' :: ds) new skip pre ++ replaceScan ('#' :: ds) new 0 ('#' :: tail) := by
  intro pre
  induction pre with
  | nil =>
    intro skip hs
    have : skip = 0 := by simpa using hs
    subst this
    rfl
  | cons c cs ih =>
    intro skip hs
    cases skip with
    | succ k =>
      rw [List.cons_append, replaceScan_skip, replaceScan_skip]
      exact ih k (by simpa using hs)
    | zero =>
      rw [List.cons_append, replaceScan_zero _ _ c (cs ++ '#' :: tail),
        replaceScan_zero _ _ c cs]
      by_cases hm : ('#' :: ds).isPrefixOf (c :: cs) = true
      · have hm2 : ('#' :: ds).isPrefixOf (c :: (cs ++ '#' :: tail)) = true :=
          isPrefixOf_append_right _ (c :: cs) _ hm
        have hlen := isPrefixOf_length _ _ hm
        rw [if_pos hm, if_pos hm2, ih _ (by simpa using hlen), List.append_assoc]
      · have hm2 : ¬ ('#' :: ds).isPrefixOf (c :: (cs ++ '#' :: tail)) = true := by
          intro h
          apply hm
          simp only [List.isPrefixOf, Bool.and_eq_true, beq_iff_eq] at h ⊢
          exact ⟨h.1, isPrefixOf_append_cons_of_not_mem '#' ds cs tail hds h.2⟩
        rw [if_neg hm, if_neg hm2, ih 0 (Nat.zero_le _)]
        rfl

/-- Scanning for a token that starts with `#` passes over a text without `#`
unchanged. -/
theorem replaceScan_append_no_hash (ds new : GoString) (post : GoString) :
    ∀ (l : GoString), '#' ∉ l →
      replaceScan ('#' :: ds) new 0 (l ++ post) = l ++ replaceScan ('#' :: ds) new 0 post := by
  intro l
  induction l with
  | nil => intro _; rfl
  | cons c cs ih =>
    intro h
    have hc : '#' ≠ c := fun e => h (e ▸ List.mem_cons_self _ _)
    have hcs : '#' ∉ cs := fun e => h (List.mem_cons_of_mem _ e)
    rw [List.cons_append, replaceScan_zero,
      if_neg (by simp [List.isPrefixOf, hc]), ih hcs]
    rfl

theorem ReplaceAll_around_token (dx dy new pre post : GoString)
    (hdx : '#' ∉ dx) (hdy : '#' ∉ dy)
    (hno : ('#' :: dx).isPrefixOf ('#' :: dy ++ post) = false) :
    ReplaceAll (pre ++ '#' :: dy ++ post) ('#' :: dx) new =
      ReplaceAll pre ('#' :: dx) new ++ '#' :: dy ++ ReplaceAll post ('#' :: dx) new := by
  unfold ReplaceAll
  by_cases h1 : '#' :: dx = new
  · simp only [h1, if_true]
  · simp only [h1, if_false, List.cons_ne_nil]
    have hno2 : ¬ ('#' :: dx).isPrefixOf ('#' :: (dy ++ post)) = true := by
      rw [show '#' :: (dy ++ post) = '#' :: dy ++ post from rfl, hno]
      simp
    rw [show pre ++ '#' :: dy ++ post = pre ++ '#' :: (dy ++ post) by simp,
      replaceScan_append_hash dx new hdx (dy ++ post) pre 0 (Nat.zero_le _),
      replaceScan_zero, if_neg hno2, replaceScan_append_no_hash dx new post dy hdy]
    simp

theorem paramToken_no_overlap (x y : Int) (post : GoString) (hx : 0 ≤ x)
    (hxy : (Itoa x).isPrefixOf (Itoa y) = false)
    (hpost : ∀ c, post.head? = some c → c.isDigit = false) :
    ('#' :: Itoa x).isPrefixOf ('#' :: Itoa y ++ post) = false := by
  cases h : ('#' :: Itoa x).isPrefixOf ('#' :: Itoa y ++ post) with
  | false => rfl
  | true =>
    simp only [List.cons_append, List.isPrefixOf, Bool.and_eq_true, beq_iff_eq] at h
    rcases isPrefixOf_append_cases _ _ _ h.2 with h2 | ⟨c, hc1, hc2⟩
    · rw [h2] at hxy; cases hxy
    · have := Itoa_isDigit x hx c hc2
      rw [hpost c hc1] at this
      cases this

/-- C18, as stated, fails: with the declared index 1 and the captured value `y`
the template `cat #10 #1` becomes `cat y0 y`; the token `#10` of the index 10 is
not left untouched, it is gone. -/
theorem UpdateCommandParams_other_token_counterexample :
    UpdateCommandParams sampleCommon (sampleBench "" [["1"]]) 0 "cat #10 #1".toList
      ["x".toList, "y".toList] = .ok "cat y0 y".toList ∧
    Contains "cat #10 #1".toList (paramToken 10) = true ∧
    Contains "cat y0 y".toList (paramToken 10) = false :=
  ⟨rfl, by decide, by decide⟩

/-- C18, amended: let `UpdateCommandParams` substitute the valid captured value
of the index `x`, and let the template hold the token `#y` of an index `y` at
some place (`pre` before it, `post` after it, `post` not starting with a digit)
such that the decimal text of `x` is not a prefix of the decimal text of `y`.
Then that occurrence of `#y` is unaltered in the result: the result is the
substitution applied to `pre`, followed by `#y`, followed by the substitution
applied to `post`. -/
theorem UpdateCommandParams_other_token (common : Common) (atb : AuditBench)
    (index : Int) (pre post : GoString) (resArr : List GoString) (x y : Int)
    (hidx : 0 ≤ index ∧ index < (atb.CommandParams.length : Int))
    (hfirst : firstInRange resArr (atb.CommandParams.getD index.toNat []) = some x)
    (hx : 0 ≤ x)
    (hvalid : resArr.getD x.toNat [] ≠ placeholderArtifact ∧ resArr.getD x.toNat [] ≠ [] ∧
      resArr.getD x.toNat [] ≠ common.NotValidString)
    (hxy : (Itoa x).isPrefixOf (Itoa y) = false)
    (hpost : ∀ c, post.head? = some c → c.isDigit = false) :
    ∃ pre1 post1,
      UpdateCommandParams common atb index pre resArr = .ok pre1 ∧
      UpdateCommandParams common atb index post resArr = .ok post1 ∧
      UpdateCommandParams common atb index (pre ++ paramToken y ++ post) resArr =
        .ok (pre1 ++ paramToken y ++ post1) := by
  have hsub : ∀ val, UpdateCommandParams common atb index val resArr =
      .ok (ReplaceAll val (paramToken x) (insertedText (resArr.getD x.toNat []))) := by
    intro val
    rw [UpdateCommandParams_eq common atb index val resArr hidx, hfirst]
    simp only [substituteAt]
    rw [if_neg (by omega), if_neg (not_or.2 ⟨hvalid.1, not_or.2 hvalid.2⟩)]
  refine ⟨_, _, hsub pre, hsub post, ?_⟩
  rw [hsub]
  exact congrArg Except.ok
    (ReplaceAll_around_token (Itoa x) (Itoa y) _ pre post (hash_not_mem_Itoa x)
      (hash_not_mem_Itoa y) (paramToken_no_overlap x y post hx hxy hpost))

/-- Witness of the amended C18: substituting `v` for the index 10 in
`cat #10 #1 #10` leaves the token `#1` in place. -/
theorem UpdateCommandParams_other_token_witness :
    ((0 : Int) ≤ 0 ∧ (0 : Int) < ((sampleBench "" [["10"]]).CommandParams.length : Int)) ∧
    firstInRange (List.replicate 11 "v".toList)
      ((sampleBench "" [["10"]]).CommandParams.getD (0 : Int).toNat []) = some 10 ∧
    (0 : Int) ≤ 10 ∧
    ((List.replicate 11 "v".toList).getD (10 : Int).toNat [] ≠ placeholderArtifact ∧
      (List.replicate 11 "v".toList).getD (10 : Int).toNat [] ≠ [] ∧
      (List.replicate 11 "v".toList).getD (10 : Int).toNat [] ≠ sampleCommon.NotValidString) ∧
    (Itoa 10).isPrefixOf (Itoa 1) = false ∧
    (∀ c, " #10".toList.head? = some c → c.isDigit = false) ∧
    (∃ pre1 post1,
      UpdateCommandParams sampleCommon (sampleBench "" [["10"]]) 0 "cat #10 ".toList
        (List.replicate 11 "v".toList) = .ok pre1 ∧
      UpdateCommandParams sampleCommon (sampleBench "" [["10"]]) 0 " #10".toList
        (List.replicate 11 "v".toList) = .ok post1 ∧
      UpdateCommandParams sampleCommon (sampleBench "" [["10"]]) 0
        ("cat #10 ".toList ++ paramToken 1 ++ " #10".toList)
        (List.replicate 11 "v".toList) = .ok (pre1 ++ paramToken 1 ++ post1)) ∧
    UpdateCommandParams sampleCommon (sampleBench "" [["10"]]) 0 "cat #10 #1 #10".toList
        (List.replicate 11 "v".toList) = .ok "cat v #1 v".toList :=
  have hpost : ∀ c, " #10".toList.head? = some c → c.isDigit = false := by
    intro c hc
    have h : ' ' = c := Option.some.inj hc
    subst h
    decide
  ⟨by decide, rfl, by decide, by decide, by decide, hpost,
    UpdateCommandParams_other_token sampleCommon (sampleBench "" [["10"]]) 0
      "cat #10 ".toList " #10".toList (List.replicate 11 "v".toList) 10 1
      (by decide) rfl (by decide) (by decide) (by decide) hpost,
    rfl⟩

/-! ## The recursion states of `evalExpression` -/

theorem rangeOutputs_returns (env : Env)
    (recur : ValidateExprData → List GoString → World → Except Fault World)
    (ved next : ValidateExprData) (n : Nat) (hnext : ved.NextValidExprData = .ok next)
    (hrec : ∀ c w, ∃ w1, recur next c w = .ok w1) :
    ∀ (os combArr : List GoString) (w : World),
      ∃ r, rangeOutputs env recur ved n os combArr w = .ok r := by
  intro os
  induction os with
  | nil => intro combArr w; exact ⟨_, rfl⟩
  | cons o os ih =>
    intro combArr w
    rw [rangeOutputs]
    split
    · exact ih combArr w
    · obtain ⟨w1, h1⟩ := hrec (combArr ++ [o]) w
      simp only [hnext, h1]
      exact ih _ _

theorem evalExpressionFuel_returns (env : Env) :
    ∀ (resultArr : List GoString) (fuel : Nat) (ved : ValidateExprData)
      (combArr : List GoString) (w : World),
      ved.resultArr = resultArr → ved.index = (resultArr.length : Int) →
      resultArr.length ≤ fuel →
      ∃ w1, evalExpressionFuel env fuel ved combArr w = .ok w1 := by
  intro resultArr
  induction resultArr with
  | nil =>
    intro fuel ved combArr w hr _ _
    exact ⟨w, evalExpressionFuel_nil env fuel ved combArr w hr⟩
  | cons r0 rest ih =>
    intro fuel ved combArr w hr hi hf
    obtain ⟨f, rfl⟩ : ∃ f, fuel = f + 1 := ⟨fuel - 1, by simp at hf; omega⟩
    have hnext := NextValidExprData_tail ved r0 rest hr hi
    obtain ⟨r, hloop⟩ := rangeOutputs_returns env (evalExpressionFuel env f) ved _
      (Split r0 "\n".toList).length hnext
      (fun c w' => ih f _ c w' rfl rfl (by simp at hf ⊢; omega))
      (Split r0 "\n".toList) combArr w
    rw [evalExpressionFuel]
    simp only [hr, hloop]
    exact ⟨_, rfl⟩

theorem ReachableAt_eq (arr : List GoString) (depth : Nat) (ved : ValidateExprData)
    (h : ReachableAt arr depth ved) :
    depth ≤ arr.length ∧
    ved = { index := (arr.length : Int) - (depth : Int), resultArr := arr.drop depth,
            origSize := (arr.length : Int), Total := 0, Match := 0 } := by
  induction h with
  | start => exact ⟨Nat.zero_le _, by simp [NewValidExprData]⟩
  | call d ved next _ hne hnext ih =>
    obtain ⟨hd, hved⟩ := ih
    have hlt : d < arr.length := by
      by_contra hc
      apply hne
      rw [hved]
      exact List.drop_eq_nil_of_le (by omega)
    have hdrop : ved.resultArr = arr[d] :: arr.drop (d + 1) := by
      rw [hved]
      exact List.drop_eq_getElem_cons hlt
    have hidx : ved.index = ((arr[d] :: arr.drop (d + 1)).length : Int) := by
      rw [hved]
      simp only [List.length_cons, List.length_drop]
      omega
    rw [NextValidExprData_tail ved _ _ hdrop hidx] at hnext
    cases hnext
    refine ⟨hlt, ?_⟩
    rw [hved]
    simp only [List.length_drop]
    congr 1
    omega

/-- C19: every recursion state of `evalExpression` reachable from
`NewValidExprData(arr, test)`, at the nesting depth `depth`, has
`index == len(resultArr)` and `origSize == len(arr)`; its `resultArr` is `arr`
without its first `depth` entries, and `depth` is at most `len(arr)`.  When its
`resultArr` is not empty `NextValidExprData` does not panic (the slice
expression is within bounds) and returns the tail of `resultArr` with `index`
decreased by one, a state reachable one level deeper; when it is empty, which
is the case at the depth `len(arr)`, `evalExpression` returns at once.  In every
reachable state `evalExpression` returns. -/
theorem evalExpression_reachable_state (arr : List GoString) (depth : Nat)
    (ved : ValidateExprData) (h : ReachableAt arr depth ved) :
    ved.index = (ved.resultArr.length : Int) ∧
    ved.origSize = (arr.length : Int) ∧
    depth ≤ arr.length ∧
    ved.resultArr = arr.drop depth ∧
    (ved.resultArr ≠ [] → ∃ next, ved.NextValidExprData = .ok next ∧
      next.resultArr = ved.resultArr.tail ∧ next.index = ved.index - 1 ∧
      next.origSize = ved.origSize ∧ ReachableAt arr (depth + 1) next) ∧
    (depth = arr.length → ved.resultArr = []) ∧
    (ved.resultArr = [] → ∀ (env : Env) (combArr : List GoString) (w : World),
      evalExpression env ved combArr w = .ok w) ∧
    (∀ (env : Env) (combArr : List GoString) (w : World),
      ∃ w1, evalExpression env ved combArr w = .ok w1) := by
  obtain ⟨hd, hved⟩ := ReachableAt_eq arr depth ved h
  have hidx : ved.index = (ved.resultArr.length : Int) := by
    rw [hved]
    simp only [List.length_drop]
    omega
  have hres : ved.resultArr = arr.drop depth := by rw [hved]
  refine ⟨hidx, by rw [hved], hd, hres, ?_, ?_, ?_, ?_⟩
  · intro hne
    cases hr : ved.resultArr with
    | nil => exact absurd hr hne
    | cons r0 rest =>
      have hnext := NextValidExprData_tail ved r0 rest hr (by rw [hidx, hr])
      refine ⟨_, hnext, rfl, ?_, rfl, ReachableAt.call depth ved _ h hne hnext⟩
      show (rest.length : Int) = ved.index - 1
      rw [hidx, hr]
      simp
  · intro hdl
    rw [hres, hdl]
    exact List.drop_length _
  · intro hnil env combArr w
    exact evalExpressionFuel_nil env _ ved combArr w hnil
  · intro env combArr w
    exact evalExpressionFuel_returns env ved.resultArr _ ved combArr w rfl hidx (Nat.le_refl _)

/-- Witness of C19: the state one level down from `NewValidExprData` of the two
outputs `"a\nb"` and `"x"`. -/
theorem evalExpression_reachable_state_witness :
    ReachableAt ["a\nb".toList, "x".toList] 1
      { index := 1, resultArr := ["x".toList], origSize := 2, Total := 0, Match := 0 } ∧
    ((1 : Int) = ((["x".toList] : List GoString).length : Int) ∧
      (2 : Int) = ((["a\nb".toList, "x".toList] : List GoString).length : Int) ∧
      1 ≤ (["a\nb".toList, "x".toList] : List GoString).length ∧
      (["x".toList] : List GoString) = (["a\nb".toList, "x".toList] : List GoString).drop 1) :=
  have hreach : ReachableAt ["a\nb".toList, "x".toList] 1
      { index := 1, resultArr := ["x".toList], origSize := 2, Total := 0, Match := 0 } :=
    ReachableAt.call 0 (NewValidExprData ["a\nb".toList, "x".toList]) _ ReachableAt.start
      (by decide) rfl
  have hthm := evalExpression_reachable_state ["a\nb".toList, "x".toList] 1 _ hreach
  ⟨hreach, hthm.1, hthm.2.1, hthm.2.2.1, hthm.2.2.2.1⟩

end KubeBeacon
